import Mathlib

/-!
Verification of the canopy random-forest library (CPBridge/canopy) against its
natural-language specification.  The definitions below are shallow embeddings of
the C++ source under `src/include/canopy/`; machine floating-point values are
modelled by exact rationals (`ℚ`) where the code only moves and compares them,
and by real numbers (`ℝ`) where transcendental functions are involved.
-/

namespace Canopy

/-- Model of C `atan2(y, x)`: the argument of the complex number `x + i y`,
which is exactly `Complex.arg` of that number. -/
noncomputable def atan2 (y x : ℝ) : ℝ := Complex.arg ⟨x, y⟩

/-- Modified Bessel function of the first kind of order zero, `I₀`, by its
power series.  This models `boost::math::cyl_bessel_i(0, x)` as used by
`vonMisesDistribution`. -/
noncomputable def besselI0 (x : ℝ) : ℝ :=
  tsum (fun n : ℕ => (x / 2) ^ (2 * n) / ((n.factorial : ℝ) * n.factorial))

/-- Largest finite single-precision float, `std::numeric_limits<float>::max()`
`= (2 − 2⁻²³)·2¹²⁷`. -/
def floatMax : ℝ := (2 ^ 24 - 1) * 2 ^ 104

/-- Largest finite double, `std::numeric_limits<double>::max()`
`= (2 − 2⁻⁵²)·2¹⁰²³`. -/
def doubleMax : ℝ := (2 ^ 53 - 1) * 2 ^ 971

theorem besselI0_terms_nonneg (x : ℝ) (n : ℕ) :
    0 ≤ (x / 2) ^ (2 * n) / ((n.factorial : ℝ) * n.factorial) := by
  apply div_nonneg
  · rw [pow_mul]
    positivity
  · positivity

theorem besselI0_summable (x : ℝ) :
    Summable (fun n : ℕ => (x / 2) ^ (2 * n) / ((n.factorial : ℝ) * n.factorial)) := by
  apply Summable.of_nonneg_of_le (besselI0_terms_nonneg x) _
    (Real.summable_pow_div_factorial ((x / 2) ^ 2))
  intro n
  have h1 : (1 : ℝ) ≤ (n.factorial : ℝ) := by exact_mod_cast n.factorial_pos
  rw [pow_mul]
  have h2 : (0 : ℝ) < (n.factorial : ℝ) := by positivity
  have h3 : (n.factorial : ℝ) ≤ (n.factorial : ℝ) * n.factorial := by nlinarith
  exact div_le_div_of_nonneg_left (by positivity) h2 h3

theorem one_le_besselI0_of_nonneg (x : ℝ) : 1 ≤ besselI0 x := by
  have h0 : (x / 2) ^ (2 * 0) / ((Nat.factorial 0 : ℝ) * Nat.factorial 0) = 1 := by
    norm_num
  calc (1 : ℝ) = (x / 2) ^ (2 * 0) / ((Nat.factorial 0 : ℝ) * Nat.factorial 0) := h0.symm
    _ ≤ besselI0 x := le_tsum (besselI0_summable x) 0
        (fun n _ => besselI0_terms_nonneg x n)

/-! ## The von Mises distribution (`vonMisesDistribution.hpp`) -/

/-- State of `canopy::vonMisesDistribution`: mean direction `mu`, concentration
`kappa`, sine/cosine accumulators `S`, `C`, and the cached `pdf_normaliser`. -/
structure VonMises where
  mu : ℝ
  kappa : ℝ
  S : ℝ
  C : ℝ
  pdf_normaliser : ℝ

/-- Model of the basic constructor / `initialise()` / `reset()` state:
`mu = kappa = S = C = 0`, `pdf_normaliser = 1`. -/
def vmInitial : VonMises := ⟨0, 0, 0, 0, 1⟩

/-- Model of `vonMisesDistribution::fit` (lines 68–111 of
`vonMisesDistribution.hpp`).  The numerical root-finder for
`I₁(κ)/I₀(κ) = R̄` (out of scope per the spec) is abstracted as the parameter
`kappaSolve`.  Note that in the `Re > 0.98` clamp branch the source assigns
only `kappa = 25.0` and leaves `pdf_normaliser` at its previous value; the
`pdf_normaliser` assignment appears only in the `else` branch. -/
noncomputable def vmFit (kappaSolve : ℝ → ℝ) (labels : List ℝ) (d : VonMises) :
    VonMises :=
  let S := (labels.map Real.sin).sum
  let C := (labels.map Real.cos).sum
  let R2 := S * S + C * C
  let mu := atan2 S C
  let Re := Real.sqrt R2 / (labels.length : ℝ)
  if 0.98 < Re then
    { d with mu := mu, kappa := 25, S := S, C := C }
  else
    let kappa := kappaSolve Re
    { mu := mu, kappa := kappa, S := S, C := C,
      pdf_normaliser := 1 / (2 * Real.pi * besselI0 kappa) }

/-- Model of `vonMisesDistribution::pdf`. -/
noncomputable def vmPdf (d : VonMises) (x : ℝ) : ℝ :=
  d.pdf_normaliser * Real.exp (d.kappa * Real.cos (x - d.mu))

/-- Model of `vonMisesDistribution::readIn`: reads `mu` and `kappa`, then
reconstitutes `S = sin mu`, `C = cos mu` and recomputes the normaliser. -/
noncomputable def vmReadIn (mu kappa : ℝ) (d : VonMises) : VonMises :=
  { d with mu := mu, kappa := kappa, S := Real.sin mu, C := Real.cos mu,
           pdf_normaliser := 1 / (2 * Real.pi * besselI0 kappa) }

/-- Model of `vonMisesDistribution::combineWith` (lines 187–193): adds
`other.kappa * other.S` to `S` and `other.kappa * other.C` to `C`. -/
def vmCombineWith (d other : VonMises) : VonMises :=
  { d with S := d.S + other.kappa * other.S, C := d.C + other.kappa * other.C }

/-- Model of `vonMisesDistribution::normalise` (overflow clamp omitted here;
see the spec §4.B).  Unused by the claims but kept for context. -/
noncomputable def vmNormalise (d : VonMises) : VonMises :=
  { d with mu := atan2 d.S d.C, kappa := Real.sqrt (d.S * d.S + d.C * d.C),
           pdf_normaliser :=
             1 / (2 * Real.pi * besselI0 (Real.sqrt (d.S * d.S + d.C * d.C))) }

theorem atan2_two_zero : atan2 2 0 = Real.pi / 2 := by
  have h1 : (⟨0, 2⟩ : ℂ) = (2 : ℝ) * Complex.I := by
    apply Complex.ext <;> simp
  unfold atan2
  rw [h1, Complex.arg_real_mul Complex.I (by norm_num : (0 : ℝ) < 2), Complex.arg_I]

/-- Distribution obtained by fitting the two labels `[π/2, π/2]` from a freshly
initialised state.  Here `R̄ = 1 > 0.98`, so the clamp branch runs and the
external solver (stand-in `fun _ => 0`) is never consulted. -/
noncomputable def vmFitHalfPi : VonMises :=
  vmFit (fun _ => 0) [Real.pi / 2, Real.pi / 2] vmInitial

theorem vmFitHalfPi_eval :
    vmFitHalfPi = { mu := atan2 2 0, kappa := 25, S := 2, C := 0, pdf_normaliser := 1 } := by
  have hsq : Real.sqrt ((1 + (1 + 0)) * (1 + (1 + 0)) + (0 + (0 + 0)) * (0 + (0 + 0))) = 2 := by
    rw [show ((1 + (1 + 0)) * (1 + (1 + 0)) + (0 + (0 + 0)) * (0 + (0 + 0)) : ℝ) = 2 ^ 2 by
      norm_num]
    exact Real.sqrt_sq (by norm_num)
  unfold vmFitHalfPi vmFit
  simp only [List.map_cons, List.map_nil, List.sum_cons, List.sum_nil,
    Real.sin_pi_div_two, Real.cos_pi_div_two, List.length_cons, List.length_nil, hsq]
  rw [if_pos (by norm_num)]
  simp only [vmInitial]
  norm_num

/-- Distribution obtained by fitting the two labels `[0, 0]` from a freshly
initialised state.  Here `R̄ = 1 > 0.98`, so the clamp branch runs. -/
noncomputable def vmFitZeros : VonMises :=
  vmFit (fun _ => 0) [0, 0] vmInitial

theorem vmFitZeros_eval :
    vmFitZeros = { mu := atan2 0 2, kappa := 25, S := 0, C := 2, pdf_normaliser := 1 } := by
  have hsq : Real.sqrt ((0 + (0 + 0)) * (0 + (0 + 0)) + (1 + (1 + 0)) * (1 + (1 + 0))) = 2 := by
    rw [show ((0 + (0 + 0)) * (0 + (0 + 0)) + (1 + (1 + 0)) * (1 + (1 + 0)) : ℝ) = 2 ^ 2 by
      norm_num]
    exact Real.sqrt_sq (by norm_num)
  unfold vmFitZeros vmFit
  simp only [List.map_cons, List.map_nil, List.sum_cons, List.sum_nil,
    Real.sin_zero, Real.cos_zero, List.length_cons, List.length_nil, hsq]
  rw [if_pos (by norm_num)]
  simp only [vmInitial]
  norm_num

/-- C4 counterexample: for the distribution fitted on `[π/2, π/2]` (clamped
`κ = 25`, accumulator `S = 2`, `μ = π/2`), `combineWith` adds
`κ·S = 50` to the accumulator of the target, not `κ·sin μ = 25` as the claim
states: after `fit`, `S` is the raw sine sum, not `sin μ`. -/
theorem vmCombineWith_after_fit_cex :
    (vmCombineWith vmInitial vmFitHalfPi).S = 50 ∧
    vmFitHalfPi.kappa * Real.sin vmFitHalfPi.mu = 25 ∧ (50 : ℝ) ≠ 25 := by
  refine ⟨?_, ?_, by norm_num⟩
  · show vmInitial.S + vmFitHalfPi.kappa * vmFitHalfPi.S = 50
    rw [vmFitHalfPi_eval]
    show (0 : ℝ) + 25 * 2 = 50
    norm_num
  · rw [vmFitHalfPi_eval]
    show (25 : ℝ) * Real.sin (atan2 2 0) = 25
    rw [atan2_two_zero, Real.sin_pi_div_two, mul_one]

/-- C4 (amended): `combineWith(other)` adds `other.κ · other.S` to `S` and
`other.κ · other.C` to `C`, where `S` and `C` are the accumulator fields of
`other`.  For a distribution produced by `readIn` these accumulators are
exactly `sin μ` and `cos μ`, so in that case — but not after `fit`, which
leaves the raw sine/cosine sums in them — each summand is a vector of length
`κ` in direction `μ`. -/
theorem vmCombineWith_adds_weighted_accumulators
    (d other : VonMises) (mu kappa : ℝ) (d0 : VonMises) :
    (vmCombineWith d other).S = d.S + other.kappa * other.S ∧
    (vmCombineWith d other).C = d.C + other.kappa * other.C ∧
    (vmCombineWith d (vmReadIn mu kappa d0)).S
      = d.S + (vmReadIn mu kappa d0).kappa * Real.sin (vmReadIn mu kappa d0).mu ∧
    (vmCombineWith d (vmReadIn mu kappa d0)).C
      = d.C + (vmReadIn mu kappa d0).kappa * Real.cos (vmReadIn mu kappa d0).mu :=
  ⟨rfl, rfl, rfl, rfl⟩

/-- C5: in the clamp branch (`R̄ > 0.98`, here `R̄ = 1` from fitting `[0,0]`),
`fit` sets `κ = 25` but leaves `pdf_normaliser` at its previous value (`1` for
a freshly initialised distribution) instead of recomputing
`1/(2π·I₀(25))`; the cached normaliser therefore does not match the resulting
`κ`, contradicting the claim. -/
theorem vmFit_clamp_stale_normaliser :
    vmFitZeros.kappa = 25 ∧ vmFitZeros.pdf_normaliser = 1 ∧
    vmFitZeros.pdf_normaliser ≠ 1 / (2 * Real.pi * besselI0 vmFitZeros.kappa) := by
  refine ⟨by rw [vmFitZeros_eval], by rw [vmFitZeros_eval], ?_⟩
  rw [vmFitZeros_eval]
  show (1 : ℝ) ≠ 1 / (2 * Real.pi * besselI0 25)
  have hb : (1 : ℝ) ≤ besselI0 25 := one_le_besselI0_of_nonneg 25
  have hpi : (3 : ℝ) < Real.pi := Real.pi_gt_three
  have hden : (1 : ℝ) < 2 * Real.pi * besselI0 25 := by nlinarith
  have : 1 / (2 * Real.pi * besselI0 25) < 1 := by
    rw [div_lt_one (by linarith)]
    exact hden
  exact (ne_of_lt this).symm

/-! ## Training leaf condition (randomForestBase.tpp lines 1014–1032) -/

/-- Condition under which `train` fits node `n` as a leaf instead of running
split search (randomForestBase.tpp lines 1017–1021): `n > 2^(L−1) − 2`
(`n > std::pow(2, n_levels-1) - 2` in the source), or the node bag holds fewer
than `min_training_data` samples, or the node was pre-marked as a leaf by a
parent.  `L` is the forest's `n_levels`. -/
def trainLeafCond (L : ℕ) (n : ℤ) (bagSize minSamples : ℕ) (premarked : Bool) : Bool :=
  ((2 : ℤ) ^ (L - 1) - 2 < n) || (bagSize < minSamples) || premarked

/-- Leaf condition as the spec sentence states it: forced leaf at maximum
allowed depth when `n > 2^L − 2`. -/
def specLeafCond (L : ℕ) (n : ℤ) (bagSize minSamples : ℕ) (premarked : Bool) : Bool :=
  ((2 : ℤ) ^ L - 2 < n) || (bagSize < minSamples) || premarked

/-- C1 counterexample: in a tree with `L = 2` levels, node `n = 1` with a bag
of `100 ≥ min_samples = 1` samples and no pre-marking is fitted as a leaf by
the code (`1 > 2^(L−1) − 2 = 0`), although the claim says every node with
`n ≤ 2^L − 2 = 2` undergoes split search. -/
theorem trainLeafCond_cex :
    trainLeafCond 2 1 100 1 false = true ∧ specLeafCond 2 1 100 1 false = false ∧
    (1 : ℤ) ≤ 2 ^ 2 - 2 := by decide

/-- C1 (amended): node `n` undergoes split search exactly when
`n ≤ 2^(L−1) − 2`, its bag has at least `min_samples` elements and it was not
pre-marked as a leaf; every node with `n > 2^(L−1) − 2` is fitted as a leaf. -/
theorem trainLeafCond_iff (L : ℕ) (hL : 1 ≤ L) (n : ℤ) (bagSize minSamples : ℕ)
    (premarked : Bool) :
    (trainLeafCond L n bagSize minSamples premarked = false ↔
      (n ≤ 2 ^ (L - 1) - 2 ∧ minSamples ≤ bagSize ∧ premarked = false)) ∧
    (∀ m : ℤ, 2 ^ (L - 1) - 2 < m →
      trainLeafCond L m bagSize minSamples premarked = true) := by
  constructor
  · simp only [trainLeafCond, Bool.or_eq_false_iff, decide_eq_false_iff_not, not_lt]
    tauto
  · intro m hm
    simp only [trainLeafCond, Bool.or_eq_true, decide_eq_true_eq]
    exact Or.inl (Or.inl hm)

theorem trainLeafCond_iff_witness :
    trainLeafCond 2 0 5 3 false = false ∧ (0 : ℤ) ≤ 2 ^ (2 - 1) - 2 ∧ 3 ≤ 5 := by
  refine ⟨?_, by decide, by decide⟩
  exact ((trainLeafCond_iff 2 (by decide) 0 5 3 false).1).2 ⟨by decide, by decide, rfl⟩

/-! ## Forest state and the token-level file model -/

/-- Token of the textual model-file format: an integer, a floating-point
number (modelled as an exact rational), one serialized node distribution
(whose own token run is abstracted to a single token), or an uninterpreted
piece of text (comment/header material). -/
inductive FileTok (TDist : Type) where
  | int (z : ℤ)
  | flt (q : ℚ)
  | dist (d : TDist)
  | txt (s : String)
deriving DecidableEq

/-- One line of the model file, as the list of its tokens. -/
abbrev FileLine (TDist : Type) := List (FileTok TDist)

/-- Model of `randomForestBase::node` (randomForestBase.hpp lines 101–108);
`TDist` is the node-distribution type.  `params` models
`std::array<int, TNumParams>`. -/
structure RFNode (TDist : Type) where
  params : List ℤ
  is_leaf : Bool
  thresh : ℚ
  post : List TDist
deriving DecidableEq

/-- Default-constructed node (`node()`): `is_leaf = false`, `thresh = 0`,
empty `post`; the `params` array is default-initialised (modelled as zeros). -/
def RFNode.fresh (TDist : Type) (P : ℕ) : RFNode TDist :=
  ⟨List.replicate P 0, false, 0, []⟩

/-- Model of `randomForestBase::tree`. -/
structure RFTree (TDist : Type) where
  nodes : List (RFNode TDist)
deriving DecidableEq

/-- Model of the data members of `randomForestBase` (randomForestBase.hpp
lines 165–176); the random engine is outside the model.  `feature_string` is
kept at the token-line level, matching how it is written to and read from the
model file. -/
structure RFForest (TDist : Type) where
  n_trees : ℤ
  n_levels : ℤ
  n_nodes : ℤ
  valid : Bool
  fit_split_nodes : Bool
  forest : List (RFTree TDist)
  feature_header : String
  feature_string : FileLine TDist
deriving DecidableEq

/-- Model of `std::vector::resize`: keep the first `n` elements, append
value-initialised elements as needed. -/
def listResize (α : Type) (l : List α) (n : ℕ) (dflt : α) : List α :=
  l.take n ++ List.replicate (n - l.length) dflt

/-- Model of `randomForestBase::allocateForestMemory` (lines 75–89):
`n_nodes = 2^(n_levels+1) − 1` and the per-tree node vectors are resized. -/
def allocateForestMemory (TDist : Type) (P : ℕ) (F : RFForest TDist) : RFForest TDist :=
  let n_nodes : ℤ := 2 ^ (F.n_levels + 1).toNat - 1
  let trees := listResize (RFTree TDist) F.forest F.n_trees.toNat ⟨[]⟩
  { F with n_nodes := n_nodes,
           forest := trees.map (fun tr =>
             ⟨listResize (RFNode TDist) tr.nodes n_nodes.toNat (RFNode.fresh TDist P)⟩) }

/-! ## C8: the `bag_proportion` check in `train` -/

/-- Model of the prefix of `randomForestBase::train` up to and including the
`bag_proportion` validity check (randomForestBase.tpp lines 977–983): first
`this->fit_split_nodes = train_split_nodes` is executed, then the check runs.
`some F'` is the state at the early `return`; `none` means training proceeds
past the check. -/
def trainBagCheck (TDist : Type) (F : RFForest TDist) (bagging : Bool)
    (bag_proportion : ℚ) (train_split_nodes : Bool) : Option (RFForest TDist) :=
  let F1 := { F with fit_split_nodes := train_split_nodes }
  if bagging && (bag_proportion ≤ 0 || 1 < bag_proportion) then some F1 else none

/-- A concrete forest state used as a counterexample input. -/
def cexForest8 : RFForest ℤ :=
  { n_trees := 1, n_levels := 1, n_nodes := 3, valid := false, fit_split_nodes := false,
    forest := [⟨[RFNode.fresh ℤ 1, RFNode.fresh ℤ 1, RFNode.fresh ℤ 1]⟩],
    feature_header := "", feature_string := [] }

/-- C8 counterexample: calling `train` with bagging enabled and
`bag_proportion = 3/2 ∉ (0,1]` on a forest with `fit_split_nodes = false`,
passing `train_split_nodes = true`, aborts with `fit_split_nodes` already
mutated to `true` — not every field is unchanged. -/
theorem trainBagCheck_mutates_cex :
    (trainBagCheck ℤ cexForest8 true (3/2) true).map (fun F => F.fit_split_nodes)
      = some true ∧
    cexForest8.fit_split_nodes = false := by
  constructor
  · unfold trainBagCheck
    rw [if_pos (by norm_num)]
    rfl
  · rfl

/-- C8 (amended): with bagging enabled and `bag_proportion` outside `(0,1]`,
`train` aborts before mutating the `valid` flag or any tree/node contents,
but only after assigning `fit_split_nodes := train_split_nodes`. -/
theorem trainBagCheck_abort_state (TDist : Type) (F : RFForest TDist) (bp : ℚ)
    (tsn : Bool) (h : bp ≤ 0 ∨ 1 < bp) :
    trainBagCheck TDist F true bp tsn = some { F with fit_split_nodes := tsn } ∧
    ({ F with fit_split_nodes := tsn } : RFForest TDist).valid = F.valid ∧
    ({ F with fit_split_nodes := tsn } : RFForest TDist).forest = F.forest ∧
    ({ F with fit_split_nodes := tsn } : RFForest TDist).n_trees = F.n_trees ∧
    ({ F with fit_split_nodes := tsn } : RFForest TDist).n_levels = F.n_levels ∧
    ({ F with fit_split_nodes := tsn } : RFForest TDist).n_nodes = F.n_nodes ∧
    ({ F with fit_split_nodes := tsn } : RFForest TDist).feature_header = F.feature_header ∧
    ({ F with fit_split_nodes := tsn } : RFForest TDist).feature_string = F.feature_string ∧
    ({ F with fit_split_nodes := tsn } : RFForest TDist).fit_split_nodes = tsn := by
  refine ⟨?_, rfl, rfl, rfl, rfl, rfl, rfl, rfl, rfl⟩
  unfold trainBagCheck
  rw [if_pos]
  simp only [Bool.true_and, Bool.or_eq_true, decide_eq_true_eq]
  exact h

theorem trainBagCheck_abort_state_witness :
    ((3 / 2 : ℚ) ≤ 0 ∨ 1 < (3 / 2 : ℚ)) ∧
    trainBagCheck ℤ cexForest8 true (3/2) true
      = some { cexForest8 with fit_split_nodes := true } :=
  ⟨Or.inr (by norm_num),
    (trainBagCheck_abort_state ℤ cexForest8 (3/2) true (Or.inr (by norm_num))).1⟩

/-! ## Input stream model (`std::ifstream` over the token-level file) -/

/-- Model of an input file stream: the remaining lines (the head line possibly
partially consumed) and the stream's fail bit.  As with iostreams, once the
fail bit is set every further extraction is a no-op. -/
structure InStream (TDist : Type) where
  lines : List (FileLine TDist)
  failbit : Bool
deriving DecidableEq

/-- Model of `std::getline`: returns the remainder of the current line and
advances to the next line; at end of file the fail bit is set. -/
def streamGetline (TDist : Type) (s : InStream TDist) :
    FileLine TDist × InStream TDist :=
  if s.failbit then ([], s)
  else
    match s.lines with
    | [] => ([], ⟨[], true⟩)
    | l :: ls => (l, ⟨ls, false⟩)

/-- Whitespace-skipping access to the next token (as formatted extraction
`>>` does): empty line remainders are skipped. -/
def streamNextTok (TDist : Type) : List (FileLine TDist) →
    Option (FileTok TDist × List (FileLine TDist))
  | [] => none
  | [] :: ls => streamNextTok TDist ls
  | (t :: ts) :: ls => some (t, ts :: ls)

/-- Model of `>>` into an `int`: on a missing or non-integer token the fail
bit is set and the extracted value is `0`. -/
def streamReadInt (TDist : Type) (s : InStream TDist) : ℤ × InStream TDist :=
  if s.failbit then (0, s)
  else
    match streamNextTok TDist s.lines with
    | some (FileTok.int z, rest) => (z, ⟨rest, false⟩)
    | _ => (0, { s with failbit := true })

/-- Model of `>>` into a `bool` (default `noboolalpha` formatting): an integer
token `0` or `1`; anything else sets the fail bit. -/
def streamReadBool (TDist : Type) (s : InStream TDist) : Bool × InStream TDist :=
  if s.failbit then (false, s)
  else
    match streamNextTok TDist s.lines with
    | some (FileTok.int 0, rest) => (false, ⟨rest, false⟩)
    | some (FileTok.int 1, rest) => (true, ⟨rest, false⟩)
    | _ => (false, { s with failbit := true })

/-- Model of `>>` into a `float`: an integer or floating-point token parses;
anything else sets the fail bit. -/
def streamReadFlt (TDist : Type) (s : InStream TDist) : ℚ × InStream TDist :=
  if s.failbit then (0, s)
  else
    match streamNextTok TDist s.lines with
    | some (FileTok.flt q, rest) => (q, ⟨rest, false⟩)
    | some (FileTok.int z, rest) => ((z : ℚ), ⟨rest, false⟩)
    | _ => (0, { s with failbit := true })

/-- Model of `>>` into a node distribution (`infile >> post[0]`, which calls
the distribution's `readIn`): consumes the distribution's serialized token. -/
def streamReadDist (TDist : Type) (dflt : TDist) (s : InStream TDist) :
    TDist × InStream TDist :=
  if s.failbit then (dflt, s)
  else
    match streamNextTok TDist s.lines with
    | some (FileTok.dist d, rest) => (d, ⟨rest, false⟩)
    | _ => (dflt, { s with failbit := true })

/-- Extraction of `P` integers in sequence, discarding them
(`for p: infile >> tempint` and friends). -/
def streamSkipInts (TDist : Type) (P : ℕ) (s : InStream TDist) : InStream TDist :=
  (List.range P).foldl (fun s' _ => (streamReadInt TDist s').2) s

/-- Extraction of `P` integers in sequence, collecting them
(`for p: infile >> params[p]`). -/
def streamReadInts (TDist : Type) (P : ℕ) (s : InStream TDist) :
    List ℤ × InStream TDist :=
  (List.range P).foldl (fun st _ =>
    let (z, s') := streamReadInt TDist st.2
    (st.1 ++ [z], s')) ([], s)

/-! ## `writeToFile` (randomForestBase.tpp lines 272–346) -/

/-- Specialization-specific persistence callbacks of the CRTP-derived class:
the text printed by `printHeaderDescription`, the line printed by
`printHeaderData`, and the model of `readHeader` (which may set the fail
bit).  The circular regressor instantiation leaves all three trivial. -/
structure SpecIOModel (TDist : Type) where
  headerDescription : String
  headerDataLine : FileLine TDist
  readHeader : InStream TDist → InStream TDist

/-- Instantiation of the specialization callbacks for
`circularRegressor` (circularRegressor.tpp lines 277–311): empty header and a
`readHeader` that consumes nothing. -/
def circularSpecOps (TDist : Type) : SpecIOModel TDist :=
  ⟨"", [], fun s => s⟩

/-- Printing of a bool by `operator<<`: `1` or `0`. -/
def boolTok (TDist : Type) (b : Bool) : FileTok TDist :=
  FileTok.int (if b then 1 else 0)

/-- Marking of the children of node `n` as orphans, as done identically in
`writeToFile` and `readFromFile`: only when `2n+2` is inside the node array. -/
def markChildren (orphan : List Bool) (n n_nodes : ℕ) : List Bool :=
  if 2 * n + 2 < n_nodes then ((orphan.set (2 * n + 1) true).set (2 * n + 2) true)
  else orphan

/-- One iteration of the node loop of `writeToFile` (lines 300–337).  The
state is the orphan flags and the lines written so far; `none` records that
`post[0]` was accessed on a node with an empty `post` vector (an
out-of-bounds read in the source). -/
def writeNodeStep (TDist : Type) (fsn : Bool) (n_nodes : ℕ)
    (nodes : List (RFNode TDist))
    (st : List Bool × Option (List (FileLine TDist))) (n : ℕ) :
    List Bool × Option (List (FileLine TDist)) :=
  match st.2 with
  | none => st
  | some acc =>
    if st.1.getD n false then
      (markChildren st.1 n n_nodes, some acc)
    else
      let nd := nodes.getD n (RFNode.fresh TDist 0)
      if nd.is_leaf then
        match nd.post.head? with
        | none => (st.1, none)
        | some d =>
            (markChildren st.1 n n_nodes,
             some (acc ++ [[boolTok TDist true, FileTok.dist d]]))
      else
        if fsn then
          match nd.post.head? with
          | none => (st.1, none)
          | some d =>
              (st.1, some (acc ++ [[boolTok TDist false] ++ nd.params.map FileTok.int
                ++ [FileTok.flt nd.thresh, FileTok.dist d]]))
        else
          (st.1, some (acc ++ [[boolTok TDist false] ++ nd.params.map FileTok.int
            ++ [FileTok.flt nd.thresh]]))

/-- Node lines of one tree as written by `writeToFile`. -/
def writeTree (TDist : Type) (fsn : Bool) (n_nodes : ℕ)
    (nodes : List (RFNode TDist)) : Option (List (FileLine TDist)) :=
  ((List.range n_nodes).foldl (writeNodeStep TDist fsn n_nodes nodes)
    (List.replicate n_nodes false, some [])).2

/-- Model of `randomForestBase::writeToFile` (lines 272–346), producing the
file as a list of token lines; `none` models the out-of-bounds `post[0]`
access on a node that should carry a distribution but does not. -/
def writeToFile (TDist : Type) (sp : SpecIOModel TDist) (F : RFForest TDist) :
    Option (List (FileLine TDist)) :=
  let top : List (FileLine TDist) :=
    [ [FileTok.txt ("# " ++ F.feature_header)],
      F.feature_string,
      [],
      [FileTok.txt "# Trees Levels Split_Dists"],
      [FileTok.int F.n_trees, FileTok.int F.n_levels, boolTok TDist F.fit_split_nodes],
      [FileTok.txt ("# " ++ sp.headerDescription)],
      sp.headerDataLine,
      [] ]
  (List.range F.n_trees.toNat).foldl (fun acc? t =>
      match acc? with
      | none => none
      | some acc =>
        match writeTree TDist F.fit_split_nodes F.n_nodes.toNat
            ((F.forest.getD t ⟨[]⟩).nodes) with
        | none => none
        | some tl => some (acc ++ tl ++ [[]]))
    (some top)

/-! ## `readFromFile` (randomForestBase.tpp lines 112–257) -/

/-- One iteration of the node loop of `readFromFile` (lines 171–249).  The
state is the node list of the current tree, the orphan flags, the stream, and
an ok flag (false after an early `return false`). -/
def readNodeStep (TDist : Type) (dflt : TDist) (P : ℕ) (fsn : Bool)
    (max_depth_used last_split_node last_leaf_node : ℤ) (n_nodes_in_file : ℕ)
    (st : List (RFNode TDist) × List Bool × InStream TDist × Bool) (n : ℕ) :
    List (RFNode TDist) × List Bool × InStream TDist × Bool :=
  let (nodes, orphan, s, ok) := st
  if ok = false then st
  else if orphan.getD n false then
    (nodes, markChildren orphan n n_nodes_in_file, s, true)
  else if max_depth_used > -1 ∧ last_leaf_node < (n : ℤ) then
    let (isleaf, s) := streamReadBool TDist s
    let orphan := if isleaf then markChildren orphan n n_nodes_in_file else orphan
    let (_, s) := streamGetline TDist s
    (nodes, orphan, s, true)
  else
    let (il, s) := streamReadBool TDist s
    let nodes := nodes.set n { nodes.getD n (RFNode.fresh TDist 0) with is_leaf := il }
    if s.failbit then (nodes, orphan, s, false)
    else if il = true ∨ (max_depth_used > -1 ∧ last_split_node < (n : ℤ)) then
      -- leaf (or flattened-to-leaf) node: lines 206–235
      let (orphan, s, ok2, nodes) :=
        if il then (markChildren orphan n n_nodes_in_file, s, true, nodes)
        else
          let s := streamSkipInts TDist P s
          let (_, s) := streamReadFlt TDist s
          if s.failbit then (orphan, s, false, nodes)
          else (orphan, s, true,
            nodes.set n { nodes.getD n (RFNode.fresh TDist 0) with is_leaf := true })
      if ok2 = false then (nodes, orphan, s, false)
      else
        let (d, s) := streamReadDist TDist dflt s
        let nodes := nodes.set n { nodes.getD n (RFNode.fresh TDist 0) with post := [d] }
        if s.failbit then (nodes, orphan, s, false) else (nodes, orphan, s, true)
    else
      -- split node: lines 236–248
      let (ps, s) := streamReadInts TDist P s
      let nodes := nodes.set n { nodes.getD n (RFNode.fresh TDist 0) with params := ps }
      if s.failbit then (nodes, orphan, s, false)
      else
        let (th, s) := streamReadFlt TDist s
        if s.failbit then (nodes, orphan, s, false)
        else
          let nodes := nodes.set n
            { nodes.getD n (RFNode.fresh TDist 0) with thresh := th, post := [] }
          let s := if fsn then (streamGetline TDist s).2 else s
          (nodes, orphan, s, true)

/-- The node loop of `readFromFile` over one tree. -/
def readTree (TDist : Type) (dflt : TDist) (P : ℕ) (fsn : Bool)
    (max_depth_used last_split_node last_leaf_node : ℤ) (n_nodes_in_file : ℕ)
    (nodes : List (RFNode TDist)) (s : InStream TDist) :
    List (RFNode TDist) × InStream TDist × Bool :=
  let r := (List.range n_nodes_in_file).foldl
    (readNodeStep TDist dflt P fsn max_depth_used last_split_node last_leaf_node
      n_nodes_in_file)
    (nodes, List.replicate n_nodes_in_file false, s, true)
  (r.1, r.2.2.1, r.2.2.2)

/-- The tree loop of `readFromFile` (lines 165–250). -/
def readTrees (TDist : Type) (dflt : TDist) (P : ℕ) (fsn : Bool)
    (max_depth_used last_split_node last_leaf_node : ℤ) (n_nodes_in_file : ℕ)
    (trees : List (RFTree TDist)) (s : InStream TDist) :
    List (RFTree TDist) × InStream TDist × Bool :=
  (List.range trees.length).foldl (fun st t =>
      let (trs, s', ok) := st
      if ok = false then st
      else
        let r := readTree TDist dflt P fsn max_depth_used last_split_node
          last_leaf_node n_nodes_in_file ((trs.getD t ⟨[]⟩).nodes) s'
        (trs.set t ⟨r.1⟩, r.2.1, r.2.2))
    (trees, s, true)

/-- Assignment to the `feature_string` member. -/
def RFForest.withFS {TDist : Type} (F : RFForest TDist) (l : FileLine TDist) :
    RFForest TDist :=
  { F with feature_string := l }

/-- Assignment to the `n_trees` member. -/
def RFForest.withNT {TDist : Type} (F : RFForest TDist) (z : ℤ) : RFForest TDist :=
  { F with n_trees := z }

/-- Assignment to the `n_levels` member. -/
def RFForest.withNL {TDist : Type} (F : RFForest TDist) (z : ℤ) : RFForest TDist :=
  { F with n_levels := z }

/-- Assignment to the `fit_split_nodes` member. -/
def RFForest.withSplitFlag {TDist : Type} (F : RFForest TDist) (b : Bool) :
    RFForest TDist :=
  { F with fit_split_nodes := b }

/-- Assignment to the `forest` member. -/
def RFForest.withTrees {TDist : Type} (F : RFForest TDist) (ts : List (RFTree TDist)) :
    RFForest TDist :=
  { F with forest := ts }

/-- Assignment of `valid := true` (the final line of a successful read). -/
def RFForest.nowValid {TDist : Type} (F : RFForest TDist) : RFForest TDist :=
  { F with valid := true }

/-- Final stage of `readFromFile` (lines 161–256): memory allocation, the
tree/node loops, and the setting of `valid` on success. -/
def readLoopStage (TDist : Type) (dflt : TDist) (P : ℕ) (F6 : RFForest TDist)
    (s10 : InStream TDist) (max_depth_used last_split_node last_leaf_node : ℤ)
    (n_nodes_in_file : ℕ) : RFForest TDist × Bool :=
  let F7 := allocateForestMemory TDist P F6
  let r := readTrees TDist dflt P F7.fit_split_nodes max_depth_used
    last_split_node last_leaf_node n_nodes_in_file F7.forest s10
  if r.2.2 then (RFForest.nowValid (RFForest.withTrees F7 r.1), true)
  else (RFForest.withTrees F7 r.1, false)

/-- Middle stage of `readFromFile` (lines 145–162): truncation bookkeeping,
the two comment `getline`s, the specialization `readHeader` and its fail
check. -/
def readTailStage (TDist : Type) (dflt : TDist) (P : ℕ) (sp : SpecIOModel TDist)
    (F5 : RFForest TDist) (s7 : InStream TDist) (max_depth_used : ℤ) :
    RFForest TDist × Bool :=
  let n_nodes_in_file : ℕ := ((2 : ℤ) ^ (F5.n_levels + 1).toNat - 1).toNat
  if max_depth_used > -1 ∧ F5.fit_split_nodes = false then (F5, false)
  else
    let last_split_node : ℤ :=
      if max_depth_used > -1 then 2 ^ max_depth_used.toNat - 2 else -1
    let last_leaf_node : ℤ :=
      if max_depth_used > -1 then 2 ^ (max_depth_used.toNat + 1) - 2 else -1
    let F6 := if max_depth_used > -1 then RFForest.withNL F5 max_depth_used else F5
    let s8 := (streamGetline TDist s7).2
    let s9 := (streamGetline TDist s8).2
    let s10 := sp.readHeader s9
    if s10.failbit then (F6, false)
    else readLoopStage TDist dflt P F6 s10 max_depth_used last_split_node
      last_leaf_node n_nodes_in_file

/-- Model of `randomForestBase::readFromFile` (lines 112–257) over the
token-level stream; the result is the final forest state together with the
boolean return value.  The stream argument stands for a successfully opened
file; the open-failure path returns before touching any state and is outside
this model. -/
def readFromFile (TDist : Type) (dflt : TDist) (P : ℕ) (sp : SpecIOModel TDist)
    (F : RFForest TDist) (s : InStream TDist) (trees_used max_depth_used : ℤ) :
    RFForest TDist × Bool :=
  let s1 := (streamGetline TDist s).2
  let r2 := streamGetline TDist s1
  let F1 := RFForest.withFS F r2.1
  let s3 := (streamGetline TDist r2.2).2
  let s4 := (streamGetline TDist s3).2
  let r5 := streamReadInt TDist s4
  let F2 := RFForest.withNT F1 r5.1
  if r5.2.failbit then (F2, false)
  else if F2.n_trees < trees_used then (F2, false)
  else
    let F3 := if 0 < trees_used then RFForest.withNT F2 trees_used else F2
    let r6 := streamReadInt TDist r5.2
    let F4 := RFForest.withNL F3 r6.1
    if r6.2.failbit then (F4, false)
    else if F4.n_levels < max_depth_used then (F4, false)
    else
      let r7 := streamReadBool TDist r6.2
      let F5 := RFForest.withSplitFlag F4 r7.1
      if r7.2.failbit then (F5, false)
      else readTailStage TDist dflt P sp F5 r7.2 max_depth_used

theorem readLoopStage_fail_keeps_valid (TDist : Type) (dflt : TDist) (P : ℕ)
    (F6 : RFForest TDist) (s10 : InStream TDist) (mdu lsn lln : ℤ) (nnif : ℕ)
    (h : (readLoopStage TDist dflt P F6 s10 mdu lsn lln nnif).2 = false) :
    (readLoopStage TDist dflt P F6 s10 mdu lsn lln nnif).1.valid = F6.valid := by
  suffices H : ∀ r : RFForest TDist × Bool,
      readLoopStage TDist dflt P F6 s10 mdu lsn lln nnif = r →
      r.2 = false → r.1.valid = F6.valid from H _ rfl h
  intro r hr h2
  unfold readLoopStage at hr
  dsimp only at hr
  split at hr
  · subst hr
    simp at h2
  · subst hr
    rfl

theorem readTailStage_fail_keeps_valid (TDist : Type) (dflt : TDist) (P : ℕ)
    (sp : SpecIOModel TDist) (F5 : RFForest TDist) (s7 : InStream TDist) (mdu : ℤ)
    (h : (readTailStage TDist dflt P sp F5 s7 mdu).2 = false) :
    (readTailStage TDist dflt P sp F5 s7 mdu).1.valid = F5.valid := by
  suffices H : ∀ r : RFForest TDist × Bool,
      readTailStage TDist dflt P sp F5 s7 mdu = r →
      r.2 = false → r.1.valid = F5.valid from H _ rfl h
  intro r hr h2
  unfold readTailStage at hr
  dsimp only at hr
  split at hr
  · subst hr
    rfl
  · split at hr
    · subst hr
      show (if mdu > -1 then RFForest.withNL F5 mdu else F5).valid = F5.valid
      split
      · rfl
      · rfl
    · subst hr
      refine (readLoopStage_fail_keeps_valid TDist dflt P _ _ _ _ _ _ h2).trans ?_
      show (if mdu > -1 then RFForest.withNL F5 mdu else F5).valid = F5.valid
      split
      · rfl
      · rfl

/-- C2 (amended): whenever `readFromFile` fails after the file was opened
(for any reason: parse failure or a rejected truncation argument), the `valid`
flag is left exactly as it was before the call — it is not reset to `false`.
In particular a freshly constructed (invalid) forest stays invalid, but a
previously valid forest remains marked valid even though other fields may
have been partially overwritten. -/
theorem readFromFile_fail_keeps_valid (TDist : Type) (dflt : TDist) (P : ℕ)
    (sp : SpecIOModel TDist) (F : RFForest TDist) (s : InStream TDist)
    (tu mdu : ℤ) (h : (readFromFile TDist dflt P sp F s tu mdu).2 = false) :
    (readFromFile TDist dflt P sp F s tu mdu).1.valid = F.valid := by
  suffices H : ∀ r : RFForest TDist × Bool, readFromFile TDist dflt P sp F s tu mdu = r →
      r.2 = false → r.1.valid = F.valid from H _ rfl h
  intro r hr h2
  unfold readFromFile at hr
  dsimp only at hr
  repeat' split at hr
  all_goals subst hr
  all_goals first
    | rfl
    | (split <;> rfl)
    | (refine (readTailStage_fail_keeps_valid TDist dflt P sp _ _ _ h2).trans ?_
       first | rfl | (split <;> rfl))
    | exact absurd h2 (by simp)

/-- Model of a default-constructed forest (`randomForestBase()` via
`initialise()`): invalid, empty strings, no trees; the integer size members
are left indeterminate by the source and modelled as `0`. -/
def freshForest : RFForest ℤ :=
  { n_trees := 0, n_levels := 0, n_nodes := 0, valid := false, fit_split_nodes := false,
    forest := [], feature_header := "", feature_string := [] }

/-- A well-formed model file for a circular-regressor-shaped forest with one
tree, one level, `fit_split_nodes = 0`, whose root is a leaf (children are
orphans and absent). -/
def goodStream : InStream ℤ :=
  ⟨[[], [], [], [],
    [FileTok.int 1, FileTok.int 1, FileTok.int 0], [],
    [FileTok.int 1, FileTok.dist 7]], false⟩

/-- A file whose very first numeric token (the tree count) is unparseable
text. -/
def badStream : InStream ℤ :=
  ⟨[[], [], [], [], [FileTok.txt "x"]], false⟩

/-- A valid forest state reached by successfully reading `goodStream` into a
fresh forest. -/
def validForest2 : RFForest ℤ × Bool :=
  readFromFile ℤ 0 1 (circularSpecOps ℤ) freshForest goodStream (-1) (-1)

theorem readFromFile_fail_keeps_valid_witness :
    (readFromFile ℤ 0 1 (circularSpecOps ℤ) freshForest badStream (-1) (-1)).2 = false ∧
    (readFromFile ℤ 0 1 (circularSpecOps ℤ) freshForest badStream (-1) (-1)).1.valid
      = freshForest.valid :=
  ⟨rfl, readFromFile_fail_keeps_valid ℤ 0 1 (circularSpecOps ℤ) freshForest badStream
    (-1) (-1) rfl⟩

/-- C2 counterexample: reading a file whose tree-count token fails to parse
into a forest that was previously valid (here: one loaded from `goodStream`)
returns failure, yet `isValid()` still reports `true` afterwards — the forest
is not left invalid.  `readFromFile` never clears the `valid` flag. -/
theorem readFromFile_fail_valid_cex :
    validForest2.2 = true ∧ validForest2.1.valid = true ∧
    (readFromFile ℤ 0 1 (circularSpecOps ℤ) validForest2.1 badStream (-1) (-1)).2
      = false ∧
    (readFromFile ℤ 0 1 (circularSpecOps ℤ) validForest2.1 badStream (-1) (-1)).1.valid
      = true := ⟨rfl, rfl, rfl, rfl⟩

/-- A successfully-trained-shaped forest with `fit_split_nodes = true`: one
tree, three nodes; the root is a split node carrying a fitted node
distribution, its children are leaves.  The node-distribution stand-in type is
`ℤ`. -/
def cexForestSplit : RFForest ℤ :=
  { n_trees := 1, n_levels := 1, n_nodes := 3, valid := true, fit_split_nodes := true,
    forest := [⟨[⟨[5], false, 7, [10]⟩, ⟨[-1], true, 0, [11]⟩, ⟨[-1], true, 0, [12]⟩]⟩],
    feature_header := "", feature_string := [] }

/-- The result of reading the file written from `cexForestSplit` into a fresh
forest. -/
def roundTripRead : RFForest ℤ × Bool :=
  readFromFile ℤ 0 1 (circularSpecOps ℤ) freshForest
    ⟨(writeToFile ℤ (circularSpecOps ℤ) cexForestSplit).getD [], false⟩ (-1) (-1)

/-- C3: writing a trained forest that was fitted with `fit_split_nodes = true`
succeeds, and reading the file back succeeds, but the split-node distribution
is discarded by `readFromFile` (`post.clear()` then `getline` skip), so the
root's `post` vector is empty afterwards; the second `writeToFile` must then
access `post[0]` of an empty vector (out of bounds, `none` here), and no
second file — let alone a byte-identical one — is produced. -/
theorem writeReadWrite_split_dist_bug :
    (writeToFile ℤ (circularSpecOps ℤ) cexForestSplit).isSome = true ∧
    roundTripRead.2 = true ∧ roundTripRead.1.valid = true ∧
    ((roundTripRead.1.forest.getD 0 ⟨[]⟩).nodes.getD 0 (RFNode.fresh ℤ 0)).is_leaf
      = false ∧
    ((roundTripRead.1.forest.getD 0 ⟨[]⟩).nodes.getD 0 (RFNode.fresh ℤ 0)).post
      = ([] : List ℤ) ∧
    writeToFile ℤ (circularSpecOps ℤ) roundTripRead.1 = none :=
  ⟨rfl, rfl, rfl, rfl, rfl, rfl⟩

/-! ## The training node loop (randomForestBase.tpp lines 992–1149) -/

/-- Model of `randomForestBase::fitLeaf` (lines 1172–1198): set the node's
basic fields (`params` filled with `-1`, `thresh = 0`, `is_leaf = true`); fit
a distribution only when the node is the root or its parent is not a leaf
(otherwise the node is an orphan and gets no posterior); if not in the bottom
layer, mark both children as leaves.  `fitD` models `TNodeDist::fit` on the
bag members' labels/ids. -/
def fitLeafModel (D : Type) (fitD : List ℕ → D) (n_nodes : ℕ)
    (nodes : List (RFNode D)) (n : ℕ) (bag : List ℕ) : List (RFNode D) :=
  let nd0 := nodes.getD n (RFNode.fresh D 0)
  let nd1 :=
    { nd0 with params := nd0.params.map (fun _ => -1), thresh := 0, is_leaf := true }
  let nodes1 := nodes.set n nd1
  let nodes2 :=
    if n = 0 ∨ (nodes1.getD ((n - 1) / 2) (RFNode.fresh D 0)).is_leaf = false then
      nodes1.set n { nd1 with post := [fitD bag] }
    else nodes1
  if 2 * n + 2 < n_nodes then
    let c1 := 2 * n + 1
    let c2 := 2 * n + 2
    (nodes2.set c1 { nodes2.getD c1 (RFNode.fresh D 0) with is_leaf := true }).set c2
      { nodes2.getD c2 (RFNode.fresh D 0) with is_leaf := true }
  else nodes2

/-- Outcome of the per-node random-trials search of `train` (lines
1034–1098), abstracted as a function of the node index and its bag: the best
information gain, best threshold, best parameters, the score of each bag
member under the best trial, and the count of failed (no-variation) trials.
The search draws random parameters and calls the specialization's
`bestSplit`; this abstraction carries exactly what the rest of the node body
consumes. -/
abbrev TrialSearch := ℕ → List ℕ → ℝ × ℚ × List ℤ × List ℚ × ℕ

/-- One iteration of the training node loop (lines 1014–1141): if the leaf
condition holds (`trainLeafCond`), fit a leaf; otherwise run the trial search
and either commit the split (routing bag members to the children by
`score < thresh`, fitting a split-node distribution if `fit_split_nodes`) or
fit a leaf. -/
noncomputable def trainNodeStep (D : Type) (fitD : List ℕ → D) (search : TrialSearch)
    (fsn : Bool) (minGain : ℝ) (numCombos : ℕ) (L n_nodes minSamples : ℕ)
    (st : List (RFNode D) × (ℕ → List ℕ)) (n : ℕ) :
    List (RFNode D) × (ℕ → List ℕ) :=
  let (nodes, bags) := st
  let bag := bags n
  if trainLeafCond L (n : ℤ) bag.length minSamples
      (nodes.getD n (RFNode.fresh D 0)).is_leaf then
    (fitLeafModel D fitD n_nodes nodes n bag, fun m => if m = n then [] else bags m)
  else
    let r := search n bag
    let best_info_gain := r.1
    let best_thresh := r.2.1
    let best_params := r.2.2.1
    let best_score := r.2.2.2.1
    let failed_counter := r.2.2.2.2
    if minGain < best_info_gain ∧ failed_counter < numCombos then
      let nodes1 := nodes.set n
        { params := best_params, is_leaf := false, thresh := best_thresh,
          post := if fsn then [fitD bag] else [] }
      let pairs := bag.zip best_score
      let leftBag := (pairs.filter (fun pr => pr.2 < best_thresh)).map (fun pr => pr.1)
      let rightBag := (pairs.filter (fun pr => ¬ pr.2 < best_thresh)).map (fun pr => pr.1)
      (nodes1, fun m =>
        if m = n then []
        else if m = 2 * n + 1 then bags m ++ leftBag
        else if m = 2 * n + 2 then bags m ++ rightBag
        else bags m)
    else
      (fitLeafModel D fitD n_nodes nodes n bag, fun m => if m = n then [] else bags m)

/-- The per-tree training pass of `train`: the node loop over a freshly
allocated tree, starting from the root bag `bag0` (the bagged sample of this
tree). -/
noncomputable def trainTreePass (D : Type) (fitD : List ℕ → D) (search : TrialSearch)
    (fsn : Bool) (minGain : ℝ) (numCombos P L n_nodes minSamples : ℕ)
    (bag0 : List ℕ) : List (RFNode D) :=
  ((List.range n_nodes).foldl
    (trainNodeStep D fitD search fsn minGain numCombos L n_nodes minSamples)
    (List.replicate n_nodes (RFNode.fresh D P),
     fun m => if m = 0 then bag0 else [])).1

/-- Model of `classifier::raiseNodeTemperature` (classifier.tpp lines
302–315): every node of every tree whose `is_leaf` flag is set has `post[0]`
accessed and transformed; `none` models the out-of-bounds access made when
such a node's `post` vector is empty.  `g` abstracts
`discreteDistribution::raiseDistributionTemperature(T)`, which is irrelevant
to the access pattern. -/
def raiseNodeTemperature (D : Type) (g : D → D) (trees : List (List (RFNode D))) :
    Option (List (List (RFNode D))) :=
  trees.mapM (fun nodes => nodes.mapM (fun nd =>
    if nd.is_leaf then
      match nd.post with
      | [] => none
      | p :: ps => some { nd with post := g p :: ps }
    else some nd))

/-- A tree trained in a scenario where the root bag (10 samples) is below
`min_training_data = 50`: the root becomes a leaf and its children become
orphans marked `is_leaf` with no posterior.  `L = 1`, `n_nodes = 3`,
`fit_split_nodes = true`, classifier-style; the trial search is never
consulted. -/
noncomputable def orphanScenarioTree : List (RFNode ℚ) :=
  trainTreePass ℚ (fun bag => (bag.length : ℚ)) (fun _ _ => (0, 0, [], [], 0))
    true 0 4 1 1 3 50 (List.range 10)

/-- C10: in the trained tree of the orphan scenario, node 1 (child of the
leaf root) is marked `is_leaf = true` with an empty `post` vector, and
`raiseNodeTemperature` — which visits every node whose `is_leaf` flag is
true, orphans included — performs the out-of-bounds `post[0]` access
(`none`): the claim that every visited node has a non-empty dist vector is
false on every trained forest containing an orphan. -/
theorem raiseNodeTemperature_empty_post_bug :
    (orphanScenarioTree.getD 0 (RFNode.fresh ℚ 0)).is_leaf = true ∧
    (orphanScenarioTree.getD 0 (RFNode.fresh ℚ 0)).post = [10] ∧
    (orphanScenarioTree.getD 1 (RFNode.fresh ℚ 0)).is_leaf = true ∧
    (orphanScenarioTree.getD 1 (RFNode.fresh ℚ 0)).post = [] ∧
    raiseNodeTemperature ℚ (fun d => d) [orphanScenarioTree] = none := by
  refine ⟨rfl, rfl, rfl, rfl, rfl⟩

/-! ## Fast discrete entropy split (randomForestBase.tpp lines 1357–1439) -/

/-- Model of `scoreInternalIndexStruct`: a feature score paired with the
internal training index of the data point. -/
structure SIS where
  score : ℚ
  id : ℕ
deriving DecidableEq

/-- Placeholder element for out-of-range accesses. -/
def sis0 : SIS := ⟨0, 0⟩

/-- Model of the `preCalculateXlogX` table (lines 1262–1273): entry `i` holds
`i·ln i`, with entry `0` set to `0.0`. -/
noncomputable def preCalcXlogX (i : ℕ) : ℝ :=
  if i = 0 then 0 else (i : ℝ) * Real.log i

/-- State of the scan in `fastDiscreteEntropySplit`: the two histograms
(`left_binned`, `right_binned`), the two partial running totals, and the best
split position and children impurity so far. -/
structure FastState where
  left : ℕ → ℕ
  right : ℕ → ℕ
  lp : ℝ
  rp : ℝ
  bestD : ℤ
  bestImp : ℝ

/-- Number of elements among the first `k` entries of `ds` carrying label
`b`; models the left histogram contents. -/
def countLeft (lab : ℕ → ℕ) (ds : List SIS) (k b : ℕ) : ℕ :=
  ((ds.take k).filter (fun e => lab e.id = b)).length

/-- Number of elements from position `k` on carrying label `b`; models the
right histogram contents. -/
def countRight (lab : ℕ → ℕ) (ds : List SIS) (k b : ℕ) : ℕ :=
  ((ds.drop k).filter (fun e => lab e.id = b)).length

/-- Initial state of the scan (lines 1364–1395): the left histogram holds
only `data[0]`, the right one all other points; the left partial total is
`0.0` and the right partial total is accumulated over the bins; the initial
best split is position `0` unless `score[0] == score[1]`, in which case the
sentinel (`best_d = -1`, `float` max) is kept. -/
noncomputable def fastInit (xlogx : ℕ → ℝ) (K : ℕ) (lab : ℕ → ℕ) (ds : List SIS) :
    FastState :=
  let n := ds.length
  let left0 : ℕ → ℕ := fun b => countLeft lab ds 1 b
  let right0 : ℕ → ℕ := fun b => countRight lab ds 1 b
  let rp0 : ℝ := ∑ b ∈ Finset.range K, xlogx (right0 b)
  if (ds.getD 0 sis0).score = (ds.getD 1 sis0).score then
    ⟨left0, right0, 0, rp0, -1, floatMax⟩
  else
    ⟨left0, right0, 0, rp0, 0, (-(0 : ℝ) + xlogx 1) + (-rp0 + xlogx (n - 1))⟩

/-- One iteration of the scan (lines 1400–1429) at split position `d`: move
the data point at position `d` from the right histogram to the left one,
update both partial totals in `O(1)`, and — unless the next score is equal,
in which case no threshold can separate them — compare the children impurity
of this position against the best so far. -/
noncomputable def fastStep (xlogx : ℕ → ℝ) (lab : ℕ → ℕ) (ds : List SIS)
    (st : FastState) (d : ℕ) : FastState :=
  let n := ds.length
  let b := lab ((ds.getD d sis0).id)
  let right1 := Function.update st.right b (st.right b - 1)
  let left1 := Function.update st.left b (st.left b + 1)
  let lp1 := st.lp + (xlogx (left1 b) - xlogx (left1 b - 1))
  let rp1 := st.rp + (xlogx (right1 b) - xlogx (right1 b + 1))
  if (ds.getD d sis0).score = (ds.getD (d + 1) sis0).score then
    ⟨left1, right1, lp1, rp1, st.bestD, st.bestImp⟩
  else
    let left_side := -lp1 + xlogx (d + 1)
    let right_side := -rp1 + xlogx (n - d - 1)
    let imp := left_side + right_side
    if imp < st.bestImp then ⟨left1, right1, lp1, rp1, (d : ℤ), imp⟩
    else ⟨left1, right1, lp1, rp1, st.bestD, st.bestImp⟩

/-- The scan over positions `d = 1 … n−2`. -/
noncomputable def fastLoop (xlogx : ℕ → ℝ) (K : ℕ) (lab : ℕ → ℕ) (ds : List SIS) :
    FastState :=
  (List.range' 1 (ds.length - 2)).foldl (fastStep xlogx lab ds)
    (fastInit xlogx K lab ds)

/-- Model of `randomForestBase::fastDiscreteEntropySplit`: returns
`(best_split_impurity, thresh, best_d)` with
`thresh = 0.5·(score[best_d] + score[best_d+1])`. -/
noncomputable def fastDiscreteEntropySplit (xlogx : ℕ → ℝ) (K : ℕ) (lab : ℕ → ℕ)
    (ds : List SIS) : ℝ × ℚ × ℤ :=
  let st := fastLoop xlogx K lab ds
  (st.bestImp,
   ((ds.getD st.bestD.toNat sis0).score + (ds.getD (st.bestD.toNat + 1) sis0).score) / 2,
   st.bestD)

/-- Model of `classifier::bestSplit` (classifier.tpp lines 158–171): calls
`fastDiscreteEntropySplit` and returns
`info_gain = initial_impurity − best_children_impurity / N` with the
threshold. -/
noncomputable def classifierBestSplit (xlogx : ℕ → ℝ) (K : ℕ) (lab : ℕ → ℕ)
    (ds : List SIS) (initial_impurity : ℝ) : ℝ × ℚ :=
  let N := ds.length
  let r := fastDiscreteEntropySplit xlogx K lab ds
  (initial_impurity - r.1 / (N : ℝ), r.2.1)

/-! ### Brute-force reference (from the spec's words) -/

/-- Children impurity of the split at position `d` (left part = positions
`0…d`), written with the table: `xlogx(d+1) − Σ_b xlogx(c_b)` plus the same
for the right side. -/
noncomputable def bruteImpurityT (xlogx : ℕ → ℝ) (K : ℕ) (lab : ℕ → ℕ)
    (ds : List SIS) (d : ℕ) : ℝ :=
  let n := ds.length
  (xlogx (d + 1) - ∑ b ∈ Finset.range K, xlogx (countLeft lab ds (d + 1) b)) +
  (xlogx (n - d - 1) - ∑ b ∈ Finset.range K, xlogx (countRight lab ds (d + 1) b))

/-- Brute-force children impurity of the split at position `d`, following the
spec's formula directly:
`(d+1)·ln(d+1) − Σ_k c_k·ln c_k + (N−d−1)·ln(N−d−1) − Σ_k c'_k·ln c'_k`. -/
noncomputable def bruteImpurity (K : ℕ) (lab : ℕ → ℕ) (ds : List SIS) (d : ℕ) : ℝ :=
  let n := ds.length
  (((d + 1 : ℕ) : ℝ) * Real.log ((d + 1 : ℕ) : ℝ)
    - ∑ b ∈ Finset.range K,
        ((countLeft lab ds (d + 1) b : ℝ) * Real.log (countLeft lab ds (d + 1) b))) +
  (((n - d - 1 : ℕ) : ℝ) * Real.log ((n - d - 1 : ℕ) : ℝ)
    - ∑ b ∈ Finset.range K,
        ((countRight lab ds (d + 1) b : ℝ) * Real.log (countRight lab ds (d + 1) b)))

/-- The valid split positions: those `d` with `score[d] ≠ score[d+1]`
(between positions `0` and `N−2`). -/
def validPositions (ds : List SIS) : List ℕ :=
  (List.range (ds.length - 1)).filter
    (fun d => (ds.getD d sis0).score ≠ (ds.getD (d + 1) sis0).score)

/-- The valid split positions not exceeding `k`. -/
def vpUpTo (ds : List SIS) (k : ℕ) : List ℕ :=
  (List.range (k + 1)).filter
    (fun d => (ds.getD d sis0).score ≠ (ds.getD (d + 1) sis0).score)

/-- First index attaining the minimum of `f` on the list (earlier index wins
ties, matching the strict `<` update of the scan). -/
noncomputable def firstArgmin (f : ℕ → ℝ) : List ℕ → Option ℕ
  | [] => none
  | x :: xs => some (xs.foldl (fun a d => if f d < f a then d else a) x)

theorem firstArgmin_append_singleton (f : ℕ → ℝ) (l : List ℕ) (d : ℕ) :
    firstArgmin f (l ++ [d]) =
      match firstArgmin f l with
      | none => some d
      | some m => some (if f d < f m then d else m) := by
  cases l with
  | nil => rfl
  | cons x xs => simp [firstArgmin, List.foldl_append]

theorem foldlMin_mem (f : ℕ → ℝ) (x : ℕ) (xs : List ℕ) :
    xs.foldl (fun a d => if f d < f a then d else a) x ∈ x :: xs := by
  induction xs generalizing x with
  | nil => simp
  | cons y ys ih =>
    have h := ih (if f y < f x then y else x)
    rcases List.mem_cons.1 h with h1 | h1
    · by_cases hc : f y < f x
      · rw [if_pos hc] at h1
        simp [List.foldl_cons, h1, hc]
      · rw [if_neg hc] at h1
        simp [List.foldl_cons, h1, hc]
    · right
      right
      simpa [List.foldl_cons] using h1

theorem foldlMin_le (f : ℕ → ℝ) (x : ℕ) (xs : List ℕ) :
    ∀ d ∈ x :: xs, f (xs.foldl (fun a e => if f e < f a then e else a) x) ≤ f d := by
  induction xs generalizing x with
  | nil =>
    intro d hd
    simp at hd
    simp [hd]
  | cons y ys ih =>
    intro d hd
    have step : f (if f y < f x then y else x) ≤ f x ∧ f (if f y < f x then y else x) ≤ f y := by
      by_cases hc : f y < f x
      · rw [if_pos hc]
        exact ⟨le_of_lt hc, le_refl _⟩
      · rw [if_neg hc]
        exact ⟨le_refl _, le_of_not_lt hc⟩
    rcases List.mem_cons.1 hd with h1 | h1
    · subst h1
      calc f (List.foldl _ _ ys) ≤ f (if f y < f d then y else d) :=
            ih (if f y < f d then y else d) _ (List.mem_cons_self _ _)
        _ ≤ f d := step.1
    · rcases List.mem_cons.1 h1 with h2 | h2
      · subst h2
        calc f (List.foldl _ _ ys) ≤ f (if f d < f x then d else x) :=
              ih (if f d < f x then d else x) _ (List.mem_cons_self _ _)
          _ ≤ f d := by
              by_cases hc : f d < f x
              · rw [if_pos hc]
              · rw [if_neg hc]
                exact le_of_not_lt hc
      · exact ih (if f y < f x then y else x) d (List.mem_cons_of_mem _ h2)

theorem firstArgmin_spec (f : ℕ → ℝ) (l : List ℕ) (hne : l ≠ []) :
    ∃ m, firstArgmin f l = some m ∧ m ∈ l ∧ ∀ d ∈ l, f m ≤ f d := by
  cases l with
  | nil => exact absurd rfl hne
  | cons x xs =>
    exact ⟨_, rfl, foldlMin_mem f x xs, foldlMin_le f x xs⟩

theorem countLeft_succ (lab : ℕ → ℕ) (ds : List SIS) (d : ℕ) (h : d < ds.length)
    (b : ℕ) :
    countLeft lab ds (d + 1) b
      = countLeft lab ds d b + (if lab ((ds.getD d sis0).id) = b then 1 else 0) := by
  unfold countLeft
  rw [List.take_succ, List.getElem?_eq_getElem h, List.getD_eq_getElem _ _ h,
    Option.toList_some, List.filter_append, List.length_append, List.filter_singleton]
  by_cases hb : lab (ds[d].id) = b
  · simp [hb]
  · simp [hb]

theorem countRight_succ (lab : ℕ → ℕ) (ds : List SIS) (d : ℕ) (h : d < ds.length)
    (b : ℕ) :
    countRight lab ds d b
      = countRight lab ds (d + 1) b + (if lab ((ds.getD d sis0).id) = b then 1 else 0) := by
  unfold countRight
  rw [List.drop_eq_getElem_cons h, List.getD_eq_getElem _ _ h, List.filter_cons]
  by_cases hb : lab (ds[d].id) = b
  · simp [hb]
  · simp [hb]

theorem countRight_pos (lab : ℕ → ℕ) (ds : List SIS) (d : ℕ) (h : d < ds.length) :
    1 ≤ countRight lab ds d (lab ((ds.getD d sis0).id)) := by
  have h2 := countRight_succ lab ds d h (lab ((ds.getD d sis0).id))
  rw [if_pos rfl] at h2
  omega

theorem countLeft_le_one (lab : ℕ → ℕ) (ds : List SIS) (b : ℕ) :
    countLeft lab ds 1 b ≤ 1 := by
  unfold countLeft
  calc ((ds.take 1).filter (fun e => lab e.id = b)).length ≤ (ds.take 1).length :=
        List.length_filter_le _ _
    _ ≤ 1 := by
        rw [List.length_take]
        exact min_le_left _ _

theorem sum_xlogx_update (xlogx : ℕ → ℝ) (K : ℕ) (cnt : ℕ → ℕ) (b v : ℕ)
    (hb : b < K) :
    ∑ x ∈ Finset.range K, xlogx (Function.update cnt b v x)
      = (∑ x ∈ Finset.range K, xlogx (cnt x)) - xlogx (cnt b) + xlogx v := by
  have hmem : b ∈ Finset.range K := Finset.mem_range.2 hb
  have h1 : (fun x => xlogx (Function.update cnt b v x))
      = Function.update (fun x => xlogx (cnt x)) b (xlogx v) := by
    funext x
    by_cases hx : x = b
    · subst hx
      simp
    · simp [Function.update_noteq hx]
  rw [h1, Finset.sum_update_of_mem hmem]
  have h2 : ∑ x ∈ Finset.range K \ {b}, xlogx (cnt x)
      = (∑ x ∈ Finset.range K, xlogx (cnt x)) - xlogx (cnt b) := by
    rw [eq_sub_iff_add_eq, Finset.sum_sdiff_eq_sub (Finset.singleton_subset_iff.2 hmem)]
    simp
  rw [h2]
  ring

/-- Invariant of the scan after processing split positions `0 … k`: the
histograms and partial totals describe the partition at `k+1`, and the best
pair tracks the first minimiser of the children impurity over the valid
positions seen so far (sentinel `(-1, float max)` when none yet). -/
def fastInv (xlogx : ℕ → ℝ) (K : ℕ) (lab : ℕ → ℕ) (ds : List SIS) (k : ℕ)
    (st : FastState) : Prop :=
  st.left = (fun b => countLeft lab ds (k + 1) b) ∧
  st.right = (fun b => countRight lab ds (k + 1) b) ∧
  st.lp = (∑ b ∈ Finset.range K, xlogx (countLeft lab ds (k + 1) b)) ∧
  st.rp = (∑ b ∈ Finset.range K, xlogx (countRight lab ds (k + 1) b)) ∧
  (match firstArgmin (bruteImpurityT xlogx K lab ds) (vpUpTo ds k) with
   | none => st.bestD = -1 ∧ st.bestImp = floatMax
   | some m => st.bestD = (m : ℤ) ∧ st.bestImp = bruteImpurityT xlogx K lab ds m)

theorem fastInit_inv (xlogx : ℕ → ℝ) (K : ℕ) (lab : ℕ → ℕ) (ds : List SIS)
    (hn : 2 ≤ ds.length) (hx0 : xlogx 0 = 0) (hx1 : xlogx 1 = 0) :
    fastInv xlogx K lab ds 0 (fastInit xlogx K lab ds) := by
  have hsum0 : (∑ b ∈ Finset.range K, xlogx (countLeft lab ds 1 b)) = 0 := by
    apply Finset.sum_eq_zero
    intro b _
    have h1 := countLeft_le_one lab ds b
    interval_cases h : countLeft lab ds 1 b
    · exact hx0
    · exact hx1
  unfold fastInv fastInit
  dsimp only
  split
  · rename_i heq
    refine ⟨rfl, rfl, hsum0.symm, rfl, ?_⟩
    have hvp : vpUpTo ds 0 = [] := by
      unfold vpUpTo
      simp only [List.getD, List.get?_eq_getElem?] at heq
      simp [List.getD, heq]
    rw [hvp]
    exact ⟨rfl, rfl⟩
  · rename_i heq
    refine ⟨rfl, rfl, hsum0.symm, rfl, ?_⟩
    have hvp : vpUpTo ds 0 = [0] := by
      unfold vpUpTo
      simp only [List.getD, List.get?_eq_getElem?] at heq
      simp [List.range_succ, List.getD, heq]
    rw [hvp]
    show _ ∧ _
    constructor
    · rfl
    · show (-(0 : ℝ) + xlogx 1) + (_ + xlogx (ds.length - 1))
        = bruteImpurityT xlogx K lab ds 0
      unfold bruteImpurityT
      dsimp only
      rw [hsum0]
      ring_nf
      rfl

theorem fastStep_inv (xlogx : ℕ → ℝ) (K : ℕ) (lab : ℕ → ℕ) (ds : List SIS)
    (hlab : ∀ e ∈ ds, lab e.id < K)
    (hbound : ∀ j ∈ validPositions ds, bruteImpurityT xlogx K lab ds j < floatMax)
    (k : ℕ) (hk : k + 1 ≤ ds.length - 2) (hn : 2 ≤ ds.length)
    (st : FastState) (hst : fastInv xlogx K lab ds k st) :
    fastInv xlogx K lab ds (k + 1) (fastStep xlogx lab ds st (k + 1)) := by
  obtain ⟨hL, hR, hlp, hrp, hbest⟩ := hst
  have hdlt : k + 1 < ds.length := by omega
  unfold fastStep
  dsimp only
  set A := lab (ds.getD (k + 1) sis0).id with hA
  have hbK : A < K := by
    rw [hA]
    apply hlab
    rw [List.getD_eq_getElem _ _ hdlt]
    exact List.getElem_mem hdlt
  have hLb : ∀ x, st.left x = countLeft lab ds (k + 1) x := fun x => by rw [hL]
  have hRb : ∀ x, st.right x = countRight lab ds (k + 1) x := fun x => by rw [hR]
  have hposR : 1 ≤ st.right A := by
    rw [hRb]
    exact countRight_pos lab ds (k + 1) hdlt
  have hclA := countLeft_succ lab ds (k + 1) hdlt A
  rw [if_pos hA.symm] at hclA
  have hcrA := countRight_succ lab ds (k + 1) hdlt A
  rw [if_pos hA.symm] at hcrA
  have hupL : Function.update st.left A (st.left A + 1)
      = fun b' => countLeft lab ds (k + 1 + 1) b' := by
    funext b'
    show Function.update st.left A (st.left A + 1) b' = countLeft lab ds (k + 1 + 1) b'
    by_cases hbb : b' = A
    · rw [hbb, Function.update_same, hclA, hLb]
    · rw [Function.update_noteq hbb]
      have hs := countLeft_succ lab ds (k + 1) hdlt b'
      rw [if_neg (fun hc => hbb (hA.trans hc).symm)] at hs
      rw [hLb, hs]
      rfl
  have hupR : Function.update st.right A (st.right A - 1)
      = fun b' => countRight lab ds (k + 1 + 1) b' := by
    funext b'
    show Function.update st.right A (st.right A - 1) b' = countRight lab ds (k + 1 + 1) b'
    by_cases hbb : b' = A
    · rw [hbb, Function.update_same, hRb]
      omega
    · rw [Function.update_noteq hbb]
      have hs := countRight_succ lab ds (k + 1) hdlt b'
      rw [if_neg (fun hc => hbb (hA.trans hc).symm)] at hs
      rw [hRb, hs]
      rfl
  have hAL : Function.update st.left A (st.left A + 1) A = st.left A + 1 :=
    Function.update_same _ _ _
  have hAR : Function.update st.right A (st.right A - 1) A = st.right A - 1 :=
    Function.update_same _ _ _
  rw [hAL, hAR, Nat.add_sub_cancel]
  have hsub : st.right A - 1 + 1 = st.right A := by omega
  rw [hsub]
  have hsumL : (∑ b' ∈ Finset.range K, xlogx (st.left b'))
      = ∑ b' ∈ Finset.range K, xlogx (countLeft lab ds (k + 1) b') :=
    Finset.sum_congr rfl (fun x _ => by rw [hLb])
  have hsumR : (∑ b' ∈ Finset.range K, xlogx (st.right b'))
      = ∑ b' ∈ Finset.range K, xlogx (countRight lab ds (k + 1) b') :=
    Finset.sum_congr rfl (fun x _ => by rw [hRb])
  have hlpnew : st.lp + (xlogx (st.left A + 1) - xlogx (st.left A))
      = ∑ b' ∈ Finset.range K, xlogx (countLeft lab ds (k + 1 + 1) b') := by
    have h1 : (∑ b' ∈ Finset.range K, xlogx (countLeft lab ds (k + 1 + 1) b'))
        = ∑ b' ∈ Finset.range K,
            xlogx (Function.update st.left A (st.left A + 1) b') := by
      rw [hupL]
    rw [h1, sum_xlogx_update xlogx K st.left A _ hbK, hsumL, hlp]
    ring
  have hrpnew : st.rp + (xlogx (st.right A - 1) - xlogx (st.right A))
      = ∑ b' ∈ Finset.range K, xlogx (countRight lab ds (k + 1 + 1) b') := by
    have h1 : (∑ b' ∈ Finset.range K, xlogx (countRight lab ds (k + 1 + 1) b'))
        = ∑ b' ∈ Finset.range K,
            xlogx (Function.update st.right A (st.right A - 1) b') := by
      rw [hupR]
    rw [h1, sum_xlogx_update xlogx K st.right A _ hbK, hsumR, hrp]
    ring
  have hvpsucc : vpUpTo ds (k + 1) = vpUpTo ds k ++
      (if (ds.getD (k + 1) sis0).score ≠ (ds.getD (k + 1 + 1) sis0).score
       then [k + 1] else []) := by
    unfold vpUpTo
    rw [List.range_succ, List.filter_append]
    congr 1
    by_cases hq : (ds.getD (k + 1) sis0).score = (ds.getD (k + 1 + 1) sis0).score
    · rw [if_neg (fun hc => hc hq)]
      simp only [List.getD, List.get?_eq_getElem?] at hq
      simp [List.getD, hq]
    · rw [if_pos hq]
      simp only [List.getD, List.get?_eq_getElem?] at hq
      simp [List.getD, hq]
  split
  · rename_i heq
    refine ⟨hupL, hupR, hlpnew, hrpnew, ?_⟩
    rw [hvpsucc, if_neg (fun hc => hc heq), List.append_nil]
    exact hbest
  · rename_i hne
    have hkvalid : k + 1 ∈ validPositions ds := by
      unfold validPositions
      rw [List.mem_filter]
      refine ⟨List.mem_range.2 (by omega), ?_⟩
      simp only [List.getD] at hne
      simpa [List.getD] using hne
    have himp : -(st.lp + (xlogx (st.left A + 1) - xlogx (st.left A)))
          + xlogx (k + 1 + 1)
        + (-(st.rp + (xlogx (st.right A - 1) - xlogx (st.right A)))
          + xlogx (ds.length - (k + 1) - 1))
        = bruteImpurityT xlogx K lab ds (k + 1) := by
      rw [hlpnew, hrpnew]
      unfold bruteImpurityT
      dsimp only
      ring
    cases hfa : firstArgmin (bruteImpurityT xlogx K lab ds) (vpUpTo ds k) with
    | none =>
      rw [hfa] at hbest
      obtain ⟨hb1, hb2⟩ := hbest
      rw [hb2, if_pos (himp ▸ hbound _ hkvalid)]
      refine ⟨hupL, hupR, hlpnew, hrpnew, ?_⟩
      rw [hvpsucc, if_pos hne, firstArgmin_append_singleton, hfa]
      exact ⟨rfl, himp⟩
    | some m =>
      rw [hfa] at hbest
      obtain ⟨hb1, hb2⟩ := hbest
      rw [hb1, hb2, himp]
      by_cases hc : bruteImpurityT xlogx K lab ds (k + 1)
          < bruteImpurityT xlogx K lab ds m
      · rw [if_pos hc]
        refine ⟨hupL, hupR, hlpnew, hrpnew, ?_⟩
        rw [hvpsucc, if_pos hne, firstArgmin_append_singleton, hfa]
        show _ ∧ _
        rw [if_pos hc]
        exact ⟨rfl, rfl⟩
      · rw [if_neg hc]
        refine ⟨hupL, hupR, hlpnew, hrpnew, ?_⟩
        rw [hvpsucc, if_pos hne, firstArgmin_append_singleton, hfa]
        show _ ∧ _
        rw [if_neg hc]
        exact ⟨rfl, rfl⟩

theorem fastLoop_inv (xlogx : ℕ → ℝ) (K : ℕ) (lab : ℕ → ℕ) (ds : List SIS)
    (hn : 2 ≤ ds.length) (hx0 : xlogx 0 = 0) (hx1 : xlogx 1 = 0)
    (hlab : ∀ e ∈ ds, lab e.id < K)
    (hbound : ∀ j ∈ validPositions ds, bruteImpurityT xlogx K lab ds j < floatMax) :
    fastInv xlogx K lab ds (ds.length - 2) (fastLoop xlogx K lab ds) := by
  suffices H : ∀ m, m ≤ ds.length - 2 →
      fastInv xlogx K lab ds m
        ((List.range' 1 m).foldl (fastStep xlogx lab ds) (fastInit xlogx K lab ds)) from
    H _ le_rfl
  intro m
  induction m with
  | zero =>
    intro _
    exact fastInit_inv xlogx K lab ds hn hx0 hx1
  | succ m ih =>
    intro hm
    rw [List.range'_1_concat, List.foldl_append, List.foldl_cons, List.foldl_nil]
    have h1 : 1 + m = m + 1 := by omega
    rw [h1]
    exact fastStep_inv xlogx K lab ds hlab hbound m hm hn _ (ih (by omega))

theorem preCalcXlogX_eq (i : ℕ) : preCalcXlogX i = (i : ℝ) * Real.log i := by
  unfold preCalcXlogX
  by_cases h : i = 0
  · subst h
    simp
  · rw [if_neg h]

theorem preCalcXlogX_nonneg (i : ℕ) : 0 ≤ preCalcXlogX i := by
  rw [preCalcXlogX_eq]
  rcases Nat.eq_zero_or_pos i with h | h
  · subst h
    simp
  · have h1 : (1 : ℝ) ≤ (i : ℝ) := by exact_mod_cast h
    have h2 : 0 ≤ Real.log i := Real.log_nonneg h1
    positivity

theorem preCalcXlogX_le_sq (i : ℕ) : preCalcXlogX i ≤ ((i : ℝ)) ^ 2 := by
  rw [preCalcXlogX_eq]
  rcases Nat.eq_zero_or_pos i with h | h
  · subst h
    simp
  · have h0 : (0 : ℝ) < (i : ℝ) := by exact_mod_cast h
    have h2 : Real.log i ≤ (i : ℝ) - 1 := Real.log_le_sub_one_of_pos h0
    nlinarith

theorem bruteImpurityT_preCalc (K : ℕ) (lab : ℕ → ℕ) (ds : List SIS) :
    bruteImpurityT preCalcXlogX K lab ds = bruteImpurity K lab ds := by
  funext d
  unfold bruteImpurityT bruteImpurity
  simp only [preCalcXlogX_eq]

theorem bruteImpurityT_bounded (K : ℕ) (lab : ℕ → ℕ) (ds : List SIS)
    (hN : ds.length ≤ 2 ^ 60) :
    ∀ j ∈ validPositions ds, bruteImpurityT preCalcXlogX K lab ds j < floatMax := by
  intro j hj
  have hjlt : j < ds.length - 1 := by
    unfold validPositions at hj
    rw [List.mem_filter, List.mem_range] at hj
    exact hj.1
  have hS1 : (0 : ℝ) ≤ ∑ b ∈ Finset.range K,
      preCalcXlogX (countLeft lab ds (j + 1) b) :=
    Finset.sum_nonneg (fun b _ => preCalcXlogX_nonneg _)
  have hS2 : (0 : ℝ) ≤ ∑ b ∈ Finset.range K,
      preCalcXlogX (countRight lab ds (j + 1) b) :=
    Finset.sum_nonneg (fun b _ => preCalcXlogX_nonneg _)
  have hj1 : ((j + 1 : ℕ) : ℝ) ≤ (((2 : ℕ) ^ 60 : ℕ) : ℝ) := by
    have h : j + 1 ≤ 2 ^ 60 := by omega
    exact_mod_cast h
  have hj2 : ((ds.length - j - 1 : ℕ) : ℝ) ≤ (((2 : ℕ) ^ 60 : ℕ) : ℝ) := by
    have h : ds.length - j - 1 ≤ 2 ^ 60 := by omega
    exact_mod_cast h
  have hc1 : ((j + 1 : ℕ) : ℝ) ^ 2 ≤ ((((2 : ℕ) ^ 60 : ℕ)) : ℝ) ^ 2 :=
    pow_le_pow_left (by positivity) hj1 2
  have hc2 : ((ds.length - j - 1 : ℕ) : ℝ) ^ 2 ≤ ((((2 : ℕ) ^ 60 : ℕ)) : ℝ) ^ 2 :=
    pow_le_pow_left (by positivity) hj2 2
  have hb1 := preCalcXlogX_le_sq (j + 1)
  have hb2 := preCalcXlogX_le_sq (ds.length - j - 1)
  have hfm : 2 * ((((2 : ℕ) ^ 60 : ℕ)) : ℝ) ^ 2 < floatMax := by
    unfold floatMax
    norm_num
  unfold bruteImpurityT
  dsimp only
  nlinarith

/-- Central correctness fact for the fast entropy split: on sorted-or-not
data with at least one valid split position, in-range labels and any feasible
data size, the scan returns exactly the brute-force answer — the first
minimiser `d*` of the children impurity over the valid positions, that
minimum impurity, the threshold `(score[d*] + score[d*+1])/2`, and (through
`classifier::bestSplit`) `info_gain = initial_impurity − best_impurity/N`. -/
theorem fastSplitSpec (K : ℕ) (lab : ℕ → ℕ) (ds : List SIS)
    (hn : 2 ≤ ds.length) (hN : ds.length ≤ 2 ^ 60)
    (hlab : ∀ e ∈ ds, lab e.id < K) (hvp : validPositions ds ≠ []) :
    ∃ dstar : ℕ,
      firstArgmin (bruteImpurity K lab ds) (validPositions ds) = some dstar ∧
      dstar ∈ validPositions ds ∧
      (∀ d ∈ validPositions ds,
        bruteImpurity K lab ds dstar ≤ bruteImpurity K lab ds d) ∧
      (fastDiscreteEntropySplit preCalcXlogX K lab ds).2.2 = (dstar : ℤ) ∧
      (fastDiscreteEntropySplit preCalcXlogX K lab ds).1
        = bruteImpurity K lab ds dstar ∧
      (fastDiscreteEntropySplit preCalcXlogX K lab ds).2.1
        = ((ds.getD dstar sis0).score + (ds.getD (dstar + 1) sis0).score) / 2 ∧
      (∀ init : ℝ, (classifierBestSplit preCalcXlogX K lab ds init).1
        = init - bruteImpurity K lab ds dstar / (ds.length : ℝ)) := by
  have hx0 : preCalcXlogX 0 = 0 := by
    rw [preCalcXlogX_eq]
    simp
  have hx1 : preCalcXlogX 1 = 0 := by
    rw [preCalcXlogX_eq]
    simp
  have hinv := fastLoop_inv preCalcXlogX K lab ds hn hx0 hx1 hlab
    (bruteImpurityT_bounded K lab ds hN)
  obtain ⟨hL, hR, hlp, hrp, hbest⟩ := hinv
  have hvpfull : vpUpTo ds (ds.length - 2) = validPositions ds := by
    unfold vpUpTo validPositions
    have h1 : ds.length - 2 + 1 = ds.length - 1 := by omega
    rw [h1]
  rw [hvpfull] at hbest
  obtain ⟨dstar, hfa, hmem, hmin⟩ :=
    firstArgmin_spec (bruteImpurityT preCalcXlogX K lab ds) (validPositions ds) hvp
  rw [hfa] at hbest
  obtain ⟨hb1, hb2⟩ := hbest
  have hBT := bruteImpurityT_preCalc K lab ds
  refine ⟨dstar, ?_, hmem, ?_, ?_, ?_, ?_, ?_⟩
  · rw [← hBT]
    exact hfa
  · intro d hd
    rw [← hBT]
    exact hmin d hd
  · show (fastLoop preCalcXlogX K lab ds).bestD = (dstar : ℤ)
    exact hb1
  · show (fastLoop preCalcXlogX K lab ds).bestImp = _
    rw [hb2, hBT]
  · show ((ds.getD (fastLoop preCalcXlogX K lab ds).bestD.toNat sis0).score +
        (ds.getD ((fastLoop preCalcXlogX K lab ds).bestD.toNat + 1) sis0).score) / 2 = _
    rw [hb1, Int.toNat_natCast]
  · intro init
    show init - (fastLoop preCalcXlogX K lab ds).bestImp / (ds.length : ℝ) = _
    rw [hb2, hBT]


/-- C6: for a score-sorted list with at least two distinct scores (a valid
split position exists) and labels in `[0, K)`, the classifier's fast entropy
split returns the same result as the brute-force reference that evaluates
every valid split position `d` (those with `score[d] ≠ score[d+1]`): the
minimum children impurity over such positions, the threshold
`0.5·(score[d*] + score[d*+1])` at the (first) minimising position `d*`, and
`info_gain = initial_impurity − best_children_impurity / N`.  The size bound
`N ≤ 2^60` keeps every real impurity below the `float`-max sentinel the scan
starts from. -/
theorem fastEntropySplit_matches_bruteforce (K : ℕ) (lab : ℕ → ℕ) (ds : List SIS)
    (hsorted : List.Pairwise (fun a b : SIS => a.score ≤ b.score) ds)
    (hn : 2 ≤ ds.length) (hN : ds.length ≤ 2 ^ 60)
    (hlab : ∀ e ∈ ds, lab e.id < K) (hvp : validPositions ds ≠ []) :
    ∃ dstar : ℕ,
      firstArgmin (bruteImpurity K lab ds) (validPositions ds) = some dstar ∧
      dstar ∈ validPositions ds ∧
      (∀ d ∈ validPositions ds,
        bruteImpurity K lab ds dstar ≤ bruteImpurity K lab ds d) ∧
      (fastDiscreteEntropySplit preCalcXlogX K lab ds).2.2 = (dstar : ℤ) ∧
      (fastDiscreteEntropySplit preCalcXlogX K lab ds).1
        = bruteImpurity K lab ds dstar ∧
      (fastDiscreteEntropySplit preCalcXlogX K lab ds).2.1
        = ((ds.getD dstar sis0).score + (ds.getD (dstar + 1) sis0).score) / 2 ∧
      (∀ init : ℝ, (classifierBestSplit preCalcXlogX K lab ds init).1
        = init - bruteImpurity K lab ds dstar / (ds.length : ℝ)) :=
  fastSplitSpec K lab ds hn hN hlab hvp

/-- Concrete sorted two-point data set used as a witness input. -/
def dsW : List SIS := [⟨0, 0⟩, ⟨1, 1⟩]

theorem fastEntropySplit_matches_bruteforce_witness :
    List.Pairwise (fun a b : SIS => a.score ≤ b.score) dsW ∧
    2 ≤ dsW.length ∧ dsW.length ≤ 2 ^ 60 ∧
    (∀ e ∈ dsW, (fun i => i) e.id < 2) ∧ validPositions dsW ≠ [] ∧
    (∃ dstar : ℕ,
      firstArgmin (bruteImpurity 2 (fun i => i) dsW) (validPositions dsW)
        = some dstar ∧
      dstar ∈ validPositions dsW ∧
      (∀ d ∈ validPositions dsW,
        bruteImpurity 2 (fun i => i) dsW dstar ≤ bruteImpurity 2 (fun i => i) dsW d) ∧
      (fastDiscreteEntropySplit preCalcXlogX 2 (fun i => i) dsW).2.2 = (dstar : ℤ) ∧
      (fastDiscreteEntropySplit preCalcXlogX 2 (fun i => i) dsW).1
        = bruteImpurity 2 (fun i => i) dsW dstar ∧
      (fastDiscreteEntropySplit preCalcXlogX 2 (fun i => i) dsW).2.1
        = ((dsW.getD dstar sis0).score + (dsW.getD (dstar + 1) sis0).score) / 2 ∧
      (∀ init : ℝ, (classifierBestSplit preCalcXlogX 2 (fun i => i) dsW init).1
        = init - bruteImpurity 2 (fun i => i) dsW dstar / (dsW.length : ℝ))) := by
  have hs : List.Pairwise (fun a b : SIS => a.score ≤ b.score) dsW := by
    unfold dsW
    norm_num [List.pairwise_cons]
  have hvp : validPositions dsW ≠ [] := by
    unfold validPositions dsW
    norm_num [List.getD]
  have hlab : ∀ e ∈ dsW, (fun i => i) e.id < 2 := by
    intro e he
    unfold dsW at he
    rcases List.mem_cons.1 he with h | h
    · rw [h]
      norm_num
    · rcases List.mem_cons.1 h with h2 | h2
      · rw [h2]
        norm_num
      · exact absurd h2 (List.not_mem_nil e)
  refine ⟨hs, by norm_num [dsW], by norm_num [dsW], hlab, hvp, ?_⟩
  exact fastEntropySplit_matches_bruteforce 2 (fun i => i) dsW hs
    (by norm_num [dsW]) (by norm_num [dsW]) hlab hvp


/-! ## Circular regressor best split (circularRegressor.tpp lines 142–223) -/

/-- `C_NUM_SPLIT_TRIALS` from `circularRegressor.hpp`. -/
def C_NUM_SPLIT_TRIALS : ℕ := 100

/-- Cumulative sum of the precalculated sines of the labels of the first
`j+1` sorted entries (`cumsin[j]`). -/
noncomputable def cumsin (sinp : ℕ → ℝ) (ds : List SIS) (j : ℕ) : ℝ :=
  ((ds.take (j + 1)).map (fun e => sinp e.id)).sum

/-- Cumulative sum of the precalculated cosines (`cumcos[j]`). -/
noncomputable def cumcos (cosp : ℕ → ℝ) (ds : List SIS) (j : ℕ) : ℝ :=
  ((ds.take (j + 1)).map (fun e => cosp e.id)).sum

/-- The `while( split_it->score < split_thresh ) ++split_it;` walk: the first
position at or after `i` whose score is at least `τ` (or the list's end). -/
def circAdvance (ds : List SIS) (τ : ℚ) (i : ℕ) : ℕ :=
  if h : i < ds.length then
    if (ds.getD i sis0).score < τ then circAdvance ds τ (i + 1) else i
  else i
termination_by ds.length - i

/-- State of the threshold sweep: the split iterator position, the best
children impurity so far, the output threshold, and the plateau bookkeeping. -/
structure CircState where
  splitIdx : ℕ
  best : ℝ
  thresh : ℚ
  plateauFlag : Bool
  plateauStart : ℚ

/-- One trial `h` of the sweep (circularRegressor.tpp lines 169–219).  If the
new threshold does not move the split iterator, possibly move the output
threshold to the plateau midpoint and continue; otherwise clear the plateau
flag, advance the iterator, compute the two one-sided circular SSDs about the
`atan2` means of the cumulative sums, and keep the threshold if the total
improves (opening a new plateau). -/
noncomputable def circStep (sinp cosp : ℕ → ℝ) (lab : ℕ → ℝ) (ds : List SIS)
    (minval hspace : ℚ) (st : CircState) (h : ℕ) : CircState :=
  let split_thresh : ℚ := minval + (h : ℚ) * hspace
  if split_thresh ≤ (ds.getD st.splitIdx sis0).score then
    if st.plateauFlag then { st with thresh := (split_thresh + st.plateauStart) / 2 }
    else st
  else
    let st1 : CircState := { st with plateauFlag := false }
    let i := circAdvance ds split_thresh st.splitIdx
    let n := ds.length
    let left_mean := atan2 (cumsin sinp ds (i - 1)) (cumcos cosp ds (i - 1))
    let ssd_left : ℝ :=
      ((ds.take i).map (fun e => ((1 - Real.cos (lab e.id - left_mean)) / 2) ^ 2)).sum
    let right_mean := atan2 (cumsin sinp ds (n - 1) - cumsin sinp ds (i - 1))
                            (cumcos cosp ds (n - 1) - cumcos cosp ds (i - 1))
    let ssd_right : ℝ :=
      ((ds.drop i).map (fun e => ((1 - Real.cos (lab e.id - right_mean)) / 2) ^ 2)).sum
    if ssd_left + ssd_right < st1.best then
      { splitIdx := i, best := ssd_left + ssd_right, thresh := split_thresh,
        plateauFlag := true, plateauStart := split_thresh }
    else { st1 with splitIdx := i }

/-- Model of `circularRegressor::bestSplit`: sweep `h = 1 … 99` and return
`(info_gain, thresh)` with `info_gain = initial_impurity − best_impurity`. -/
noncomputable def circBestSplit (sinp cosp : ℕ → ℝ) (lab : ℕ → ℝ) (ds : List SIS)
    (initial_impurity : ℝ) : ℝ × ℚ :=
  let minval : ℚ := (ds.headD sis0).score
  let maxval : ℚ := (ds.getLastD sis0).score
  let hspace : ℚ := (maxval - minval) / (C_NUM_SPLIT_TRIALS : ℚ)
  let st := (List.range' 1 (C_NUM_SPLIT_TRIALS - 1)).foldl
    (circStep sinp cosp lab ds minval hspace) ⟨0, doubleMax, 0, false, 0⟩
  (initial_impurity - st.best, st.thresh)

/-- Fold invariance helper: a property preserved by every step along the list
holds of the fold. -/
theorem foldl_preserves {α β : Type} (P : α → Prop) (f : α → β → α) (l : List β)
    (hstep : ∀ s x, x ∈ l → P s → P (f s x)) (s0 : α) (h0 : P s0) :
    P (l.foldl f s0) := by
  induction l generalizing s0 with
  | nil => exact h0
  | cons y ys ih =>
    rw [List.foldl_cons]
    exact ih (fun s x hx hs => hstep s x (List.mem_cons_of_mem _ hx) hs) _
      (hstep s0 y (List.mem_cons_self _ _) h0)

theorem getD_mem_of_lt (ds : List SIS) (d : ℕ) (h : d < ds.length) :
    ds.getD d sis0 ∈ ds := by
  rw [List.getD_eq_getElem ds sis0 h]
  exact List.getElem_mem h

theorem sorted_getD_le (ds : List SIS)
    (hs : List.Pairwise (fun a b : SIS => a.score ≤ b.score) ds)
    (d : ℕ) (h : d + 1 < ds.length) :
    (ds.getD d sis0).score ≤ (ds.getD (d + 1) sis0).score := by
  rw [List.getD_eq_getElem ds sis0 (by omega), List.getD_eq_getElem ds sis0 h]
  have := List.pairwise_iff_get.1 hs ⟨d, by omega⟩ ⟨d + 1, h⟩ (by simp)
  simpa [List.get_eq_getElem] using this

theorem mem_validPositions_iff (ds : List SIS) (d : ℕ) :
    d ∈ validPositions ds ↔
      d < ds.length - 1 ∧ (ds.getD d sis0).score ≠ (ds.getD (d + 1) sis0).score := by
  unfold validPositions
  simp [List.mem_filter, List.mem_range]

theorem headD_eq_getD_zero (ds : List SIS) : ds.headD sis0 = ds.getD 0 sis0 := by
  cases ds <;> rfl

theorem getLastD_mem (ds : List SIS) (h : ds ≠ []) : ds.getLastD sis0 ∈ ds := by
  rw [List.getLastD_eq_getLast?, List.getLast?_eq_getLast ds h]
  simp only [Option.getD_some]
  exact List.getLast_mem h

/-- Each term `(0.5·(1 − cos θ))²` of a circular SSD lies in `[0, 1]`, so the
sum over a list is at most its length. -/
theorem circSSD_le_length (lab : ℕ → ℝ) (m : ℝ) (l : List SIS) :
    (l.map (fun e => ((1 - Real.cos (lab e.id - m)) / 2) ^ 2)).sum
      ≤ (l.length : ℝ) := by
  have hb : ∀ x ∈ l.map (fun e => ((1 - Real.cos (lab e.id - m)) / 2) ^ 2),
      x ≤ 1 := by
    intro x hx
    obtain ⟨e, _, rfl⟩ := List.mem_map.1 hx
    have h1 := Real.neg_one_le_cos (lab e.id - m)
    have h2 := Real.cos_le_one (lab e.id - m)
    have h3 : (0:ℝ) ≤ (1 - Real.cos (lab e.id - m)) / 2 := by linarith
    have h4 : (1 - Real.cos (lab e.id - m)) / 2 ≤ 1 := by linarith
    calc ((1 - Real.cos (lab e.id - m)) / 2) ^ 2 ≤ 1 ^ 2 :=
          pow_le_pow_left h3 h4 2
    _ = 1 := one_pow 2
  have hsum := List.sum_le_card_nsmul _ 1 hb
  simpa using hsum

theorem two_pow_sixty_lt_doubleMax : ((2:ℝ) ^ 60) < doubleMax := by
  unfold doubleMax
  norm_num

/-- Invariant of the threshold sweep once some trial has improved on the
`DBL_MAX` sentinel: the best impurity is strictly below the sentinel, the
output threshold lies strictly between the extreme scores
(`maxval = minval + 100·hspace`), and so does a recorded plateau start. -/
def circInv (minval hspace : ℚ) (st : CircState) : Prop :=
  st.best < doubleMax ∧ minval < st.thresh ∧
    st.thresh < minval + 100 * hspace ∧
    (st.plateauFlag = true →
      minval < st.plateauStart ∧ st.plateauStart < minval + 100 * hspace)

theorem circStep_inv (sinp cosp : ℕ → ℝ) (lab : ℕ → ℝ) (ds : List SIS)
    (minval hspace : ℚ) (hh : 0 < hspace) (st : CircState) (h : ℕ)
    (h1 : 1 ≤ h) (h99 : h ≤ 99) (hQ : circInv minval hspace st) :
    circInv minval hspace (circStep sinp cosp lab ds minval hspace st h) := by
  obtain ⟨hb, ht1, ht2, hp⟩ := hQ
  have hc1 : (0:ℚ) < (h:ℚ) * hspace :=
    mul_pos (by exact_mod_cast h1) hh
  have hc2 : (h:ℚ) * hspace < 100 * hspace := by
    have hlt : (h:ℚ) < 100 := by exact_mod_cast Nat.lt_of_le_of_lt h99 (by norm_num)
    exact mul_lt_mul_of_pos_right hlt hh
  unfold circStep
  dsimp only
  split_ifs with hca hcb hcc
  · obtain ⟨hp1, hp2⟩ := hp hcb
    exact ⟨hb, by linarith, by linarith, fun _ => ⟨hp1, hp2⟩⟩
  · exact ⟨hb, ht1, ht2, hp⟩
  · exact ⟨lt_trans hcc hb, by linarith, by linarith,
      fun _ => ⟨by linarith, by linarith⟩⟩
  · exact ⟨hb, ht1, ht2, fun hf => Bool.noConfusion hf⟩

theorem circStep_first (sinp cosp : ℕ → ℝ) (lab : ℕ → ℝ) (ds : List SIS)
    (minval hspace : ℚ) (hh : 0 < hspace) (hN : ds.length ≤ 2 ^ 60)
    (h0 : (ds.getD 0 sis0).score = minval) :
    circInv minval hspace
      (circStep sinp cosp lab ds minval hspace ⟨0, doubleMax, 0, false, 0⟩ 1) := by
  have hssd : ∀ (i : ℕ) (m₁ m₂ : ℝ),
      ((ds.take i).map (fun e => ((1 - Real.cos (lab e.id - m₁)) / 2) ^ 2)).sum +
      ((ds.drop i).map (fun e => ((1 - Real.cos (lab e.id - m₂)) / 2) ^ 2)).sum
        < doubleMax := by
    intro i m₁ m₂
    have hA := circSSD_le_length lab m₁ (ds.take i)
    have hB := circSSD_le_length lab m₂ (ds.drop i)
    have hlen : (ds.take i).length + (ds.drop i).length = ds.length := by
      rw [List.length_take, List.length_drop]
      omega
    have hcst : ((ds.take i).length : ℝ) + ((ds.drop i).length : ℝ)
        ≤ (2:ℝ) ^ 60 := by
      have hq : ((ds.take i).length : ℝ) + ((ds.drop i).length : ℝ)
          = (ds.length : ℝ) := by
        exact_mod_cast congrArg (fun n : ℕ => (n : ℝ)) hlen
      rw [hq]
      have hle : (ds.length : ℝ) ≤ ((2 ^ 60 : ℕ) : ℝ) := by exact_mod_cast hN
      calc (ds.length : ℝ) ≤ ((2 ^ 60 : ℕ) : ℝ) := hle
      _ = (2:ℝ) ^ 60 := by push_cast; ring
    have hD := two_pow_sixty_lt_doubleMax
    linarith
  unfold circStep
  dsimp only
  split_ifs with hca hcb hcc
  · exfalso
    rw [h0] at hca
    push_cast at hca
    linarith
  · exfalso
    rw [h0] at hca
    push_cast at hca
    linarith
  · refine ⟨hcc, by push_cast; linarith, by push_cast; nlinarith,
      fun _ => ⟨by push_cast; linarith, by push_cast; nlinarith⟩⟩
  · exact absurd (hssd _ _ _) hcc

theorem circBestSplit_thresh_bounds (sinp cosp : ℕ → ℝ) (lab : ℕ → ℝ)
    (ds : List SIS) (init : ℝ) (hne : ds ≠ []) (hN : ds.length ≤ 2 ^ 60)
    (hmm : (ds.headD sis0).score < (ds.getLastD sis0).score) :
    (ds.headD sis0).score < (circBestSplit sinp cosp lab ds init).2 ∧
    (circBestSplit sinp cosp lab ds init).2 < (ds.getLastD sis0).score := by
  have hh : 0 < ((ds.getLastD sis0).score - (ds.headD sis0).score)
      / ((C_NUM_SPLIT_TRIALS : ℕ) : ℚ) := by
    apply div_pos (by linarith)
    norm_num [C_NUM_SPLIT_TRIALS]
  have hmx : (ds.headD sis0).score +
      100 * (((ds.getLastD sis0).score - (ds.headD sis0).score)
        / ((C_NUM_SPLIT_TRIALS : ℕ) : ℚ)) = (ds.getLastD sis0).score := by
    norm_num [C_NUM_SPLIT_TRIALS]
    ring
  have h0 : (ds.getD 0 sis0).score = (ds.headD sis0).score := by
    rw [← headD_eq_getD_zero]
  have hfirst := circStep_first sinp cosp lab ds (ds.headD sis0).score
    (((ds.getLastD sis0).score - (ds.headD sis0).score)
      / ((C_NUM_SPLIT_TRIALS : ℕ) : ℚ)) hh hN h0
  have hsplit : List.range' 1 (C_NUM_SPLIT_TRIALS - 1) = 1 :: List.range' 2 98 :=
    rfl
  have hQ := foldl_preserves
    (circInv (ds.headD sis0).score
      (((ds.getLastD sis0).score - (ds.headD sis0).score)
        / ((C_NUM_SPLIT_TRIALS : ℕ) : ℚ)))
    (circStep sinp cosp lab ds (ds.headD sis0).score
      (((ds.getLastD sis0).score - (ds.headD sis0).score)
        / ((C_NUM_SPLIT_TRIALS : ℕ) : ℚ)))
    (List.range' 2 98)
    (fun s x hx hs => by
      have hxb := List.mem_range'_1.1 hx
      exact circStep_inv sinp cosp lab ds _ _ hh s x (by omega) (by omega) hs)
    _ hfirst
  obtain ⟨_, ht1, ht2, _⟩ := hQ
  unfold circBestSplit
  dsimp only
  rw [hsplit, List.foldl_cons]
  exact ⟨ht1, by linarith⟩

/-! ### Floating-point narrowing of the returned thresholds

`bestSplit` returns `thresh` through a `float&`.  The classifier computes
`thresh = 0.5*(score[d*] + score[d*+1])` (randomForestBase.tpp line 1436):
the two `float` scores are added in single precision, halved exactly, and
narrowed back to `float`.  The circular regressor computes the `double`
`split_thresh = minval + h*hspace` (circularRegressor.tpp line 172) and
narrows it to `float` on assignment (lines 181 and 213).  `roundFP` models
IEEE-754 round-to-nearest, ties-to-even at mantissa width `p` for finite
non-zero values in the normal range (`p = 24` for `float`, `p = 53` for
`double`). -/

/-- Round a rational to the nearest `p`-bit-mantissa floating-point value
(round to nearest, ties to even), for values in the normal range. -/
def roundFP (p : ℕ) (x : ℚ) : ℚ :=
  if x = 0 then 0
  else
    let a : ℚ := |x|
    let e : ℤ := Int.log 2 a
    let m : ℚ := a * 2 ^ (p - 1) / 2 ^ e
    let f : ℤ := ⌊m⌋
    let r : ℚ := m - f
    let n : ℤ :=
      if r < 1 / 2 then f
      else if 1 / 2 < r then f + 1
      else if f % 2 = 0 then f else f + 1
    (if x < 0 then -1 else 1) * (n : ℚ) * 2 ^ e / 2 ^ (p - 1)

theorem Int_log_eq_of (r : ℚ) (hr : 0 < r) (e : ℤ)
    (h1 : (2:ℚ) ^ e ≤ r) (h2 : r < (2:ℚ) ^ (e + 1)) : Int.log 2 r = e := by
  have h1c : ((2:ℕ):ℚ) ^ e ≤ r := by exact_mod_cast h1
  have h2c : r < ((2:ℕ):ℚ) ^ (e + 1) := by exact_mod_cast h2
  have hle : e ≤ Int.log 2 r := (Int.zpow_le_iff_le_log one_lt_two hr).1 h1c
  have hlt : Int.log 2 r < e + 1 := (Int.lt_zpow_iff_log_lt one_lt_two hr).1 h2c
  omega

theorem roundFP_pos (p : ℕ) (x : ℚ) (hx : 0 < x) (e : ℤ)
    (h1 : (2:ℚ) ^ e ≤ x) (h2 : x < (2:ℚ) ^ (e + 1)) (f : ℤ)
    (hf : ⌊x * 2 ^ (p - 1) / 2 ^ e⌋ = f) (n : ℤ)
    (hn : n = (if x * 2 ^ (p - 1) / 2 ^ e - f < 1 / 2 then f
      else if 1 / 2 < x * 2 ^ (p - 1) / 2 ^ e - f then f + 1
      else if f % 2 = 0 then f else f + 1)) :
    roundFP p x = (n : ℚ) * 2 ^ e / 2 ^ (p - 1) := by
  unfold roundFP
  rw [if_neg (ne_of_gt hx)]
  dsimp only
  rw [abs_of_pos hx, Int_log_eq_of x hx e h1 h2, hf,
    if_neg (not_lt.2 hx.le), ← hn, one_mul]

/-- `1.0f + (1.0f + 2⁻²³)` in single precision: the exact sum `2 + 2⁻²³`
is halfway between the adjacent floats `2` and `2 + 2⁻²²` and ties to the
even mantissa, giving exactly `2`. -/
theorem roundFP_adjacent_sum : roundFP 24 ((2:ℚ) + 1 / 2 ^ 23) = 2 := by
  rw [roundFP_pos 24 ((2:ℚ) + 1 / 2 ^ 23) (by norm_num) 1 (by norm_num)
    (by norm_num) (2 ^ 23) (by rw [Int.floor_eq_iff]; norm_num) (2 ^ 23)
    (by norm_num)]
  norm_num

theorem roundFP_one : roundFP 24 (1:ℚ) = 1 := by
  rw [roundFP_pos 24 (1:ℚ) (by norm_num) 0 (by norm_num) (by norm_num)
    (2 ^ 23) (by rw [Int.floor_eq_iff]; norm_num) (2 ^ 23) (by norm_num)]
  norm_num

/-- `(2⁻²³)/100` rounded to double precision. -/
theorem roundFP_hspace :
    roundFP 53 ((1:ℚ) / 838860800) = 5764607523034235 / 2 ^ 82 := by
  rw [roundFP_pos 53 ((1:ℚ) / 838860800) (by norm_num) (-30) (by norm_num)
    (by norm_num) 5764607523034234 (by rw [Int.floor_eq_iff]; norm_num)
    5764607523034235 (by norm_num)]
  norm_num

/-- `1 + hspace` computed in double precision. -/
theorem roundFP_split_thresh :
    roundFP 53 ((1:ℚ) + 5764607523034235 / 2 ^ 82)
      = 4503599632739205 / 2 ^ 52 := by
  rw [roundFP_pos 53 ((1:ℚ) + 5764607523034235 / 2 ^ 82) (by norm_num) 0
    (by norm_num) (by norm_num) 4503599632739205
    (by rw [Int.floor_eq_iff]; norm_num) 4503599632739205 (by norm_num)]
  norm_num

/-- Narrowing the double `split_thresh` to `float` collapses it back onto
`minval = 1`: the excess `≈ 2⁻²⁹·0.01` is far below the half-ulp `2⁻²⁴`. -/
theorem roundFP_narrow_thresh :
    roundFP 24 ((4503599632739205 : ℚ) / 2 ^ 52) = 1 := by
  rw [roundFP_pos 24 ((4503599632739205 : ℚ) / 2 ^ 52) (by norm_num) 0
    (by norm_num) (by norm_num) (2 ^ 23)
    (by rw [Int.floor_eq_iff]; norm_num) (2 ^ 23) (by norm_num)]
  norm_num

/-- Two data points whose `float` scores are the adjacent values `1.0f` and
`1.0f + 2⁻²³`, with distinct class labels `0` and `1` (so the perfect split
has information gain `ln 2`, well above the 0.05 default threshold, and the
variation check at randomForestBase.tpp line 1072 passes). -/
def dsF9 : List SIS := [⟨1, 0⟩, ⟨1 + 1 / 2 ^ 23, 1⟩]

/-- C9: the claim is FALSE in the program — the split search does not
guarantee two non-empty children, because the returned threshold is stored
as a `float`.  On the adjacent-float scores `dsF9`: the fast entropy split
chooses position `0` and the exact midpoint `1 + 2⁻²⁴`, which would route
the first point strictly below; but the source's float computation
`thresh = 0.5*(score[0] + score[1])` (line 1436) first adds the two floats
(ties-to-even gives exactly `2`), so the stored threshold is exactly the
lower score `1`, and `score < thresh` routes NO member strictly below it —
`nodebag[2n+1]` is empty and the assertion at line 1117 fires on a
committed split.  The circular regressor fails the same way: its first
trial threshold `minval + hspace` exceeds `minval` in double precision
(so the sweep accepts it), but narrowing to `float` collapses it onto
`minval`, again routing no member strictly below. -/
theorem bestSplit_float_thresh_empty_child :
    validPositions dsF9 = [0] ∧
    (fastDiscreteEntropySplit preCalcXlogX 2 (fun i => i) dsF9).2.1
      = ((dsF9.getD 0 sis0).score + (dsF9.getD 1 sis0).score) / 2 ∧
    dsF9.filter (fun e => e.score
        < ((dsF9.getD 0 sis0).score + (dsF9.getD 1 sis0).score) / 2)
      = [⟨1, 0⟩] ∧
    roundFP 24 (roundFP 24 ((dsF9.getD 0 sis0).score
        + (dsF9.getD 1 sis0).score) / 2)
      = (dsF9.getD 0 sis0).score ∧
    dsF9.filter (fun e => e.score
        < roundFP 24 (roundFP 24 ((dsF9.getD 0 sis0).score
            + (dsF9.getD 1 sis0).score) / 2))
      = [] ∧
    (dsF9.headD sis0).score
      < (dsF9.headD sis0).score
        + roundFP 53 (((dsF9.getLastD sis0).score - (dsF9.headD sis0).score)
            / (C_NUM_SPLIT_TRIALS : ℚ)) ∧
    roundFP 24 (roundFP 53 ((dsF9.headD sis0).score
        + roundFP 53 (((dsF9.getLastD sis0).score - (dsF9.headD sis0).score)
            / (C_NUM_SPLIT_TRIALS : ℚ))))
      = (dsF9.headD sis0).score ∧
    dsF9.filter (fun e => e.score < (dsF9.headD sis0).score) = [] := by
  have hg0 : (dsF9.getD 0 sis0).score = 1 := by norm_num [dsF9, List.getD]
  have hg1 : (dsF9.getD 1 sis0).score = 1 + 1 / 2 ^ 23 := by
    norm_num [dsF9, List.getD]
  have hh0 : (dsF9.headD sis0).score = 1 := by norm_num [dsF9]
  have hl1 : (dsF9.getLastD sis0).score = 1 + 1 / 2 ^ 23 := by
    norm_num [dsF9, List.getLastD]
  have hVP : validPositions dsF9 = [0] := by
    unfold validPositions dsF9
    norm_num [List.getD]
    have hr1 : List.range 1 = [0] := rfl
    rw [hr1]
    norm_num [List.filter_cons, List.filter_nil,
      List.getElem?_cons_zero, List.getElem?_cons_succ, Option.getD_some]
  have hsum : (1:ℚ) + (1 + 1 / 2 ^ 23) = 2 + 1 / 2 ^ 23 := by norm_num
  have hhalf : (2:ℚ) / 2 = 1 := by norm_num
  have harg : ((1 + 1 / 2 ^ 23 : ℚ) - 1) / (C_NUM_SPLIT_TRIALS : ℚ)
      = 1 / 838860800 := by
    norm_num [C_NUM_SPLIT_TRIALS]
  have hlab : ∀ e ∈ dsF9, (fun i => i) e.id < 2 := by
    intro e he
    unfold dsF9 at he
    rcases List.mem_cons.1 he with h | h
    · rw [h]
      norm_num
    · rcases List.mem_cons.1 h with h2 | h2
      · rw [h2]
        norm_num
      · exact absurd h2 (List.not_mem_nil e)
  have hvpne : validPositions dsF9 ≠ [] := by
    rw [hVP]
    simp
  obtain ⟨dstar, hfa, hdmem, hmin, hbd, himp, hth, hig⟩ :=
    fastSplitSpec 2 (fun i => i) dsF9 (by norm_num [dsF9]) (by norm_num [dsF9])
      hlab hvpne
  have hds : dstar = 0 := by
    rw [hVP] at hdmem
    simpa using hdmem
  subst hds
  simp only [Nat.zero_add] at hth
  refine ⟨hVP, hth, ?_, ?_, ?_, ?_, ?_, ?_⟩
  · simp only [hg0, hg1, hsum]
    norm_num [dsF9]
  · simp only [hg0, hg1, hsum, roundFP_adjacent_sum, hhalf, roundFP_one]
  · simp only [hg0, hg1, hsum, roundFP_adjacent_sum, hhalf, roundFP_one]
    norm_num [dsF9]
  · simp only [hh0, hl1, harg, roundFP_hspace]
    norm_num
  · simp only [hh0, hl1, harg, roundFP_hspace, roundFP_split_thresh,
      roundFP_narrow_thresh]
  · simp only [hh0]
    norm_num [dsF9]

/-! ## C7: groupwise versus single prediction
(randomForestBase.tpp lines 383–482 and 820–914) -/

/-- One iteration of the `while` loop of `findLeafSingle` (lines 907–911),
made absorbing at leaves: at a leaf stay put, otherwise move to child
`2n+1` or `2n+2` according to the feature score. -/
def descendStep (TDist : Type) (nodes : List (RFNode TDist))
    (f : ℕ → List ℤ → ℚ) (id : ℕ) (n : ℕ) : ℕ :=
  if (nodes.getD n (RFNode.fresh TDist 0)).is_leaf then n
  else if f id (nodes.getD n (RFNode.fresh TDist 0)).params
      < (nodes.getD n (RFNode.fresh TDist 0)).thresh then 2 * n + 1
  else 2 * n + 2

/-- `randomForestBase::findLeafSingle` (lines 902–914): descend from the
root until a leaf is reached.  On a well-formed tree the loop runs at most
`nodes.length` times, so the model iterates the absorbing step exactly that
many times; the result is the index of the leaf node reached. -/
def findLeafSingle (TDist : Type) (nodes : List (RFNode TDist))
    (f : ℕ → List ℤ → ℚ) (id : ℕ) : ℕ :=
  (descendStep TDist nodes f id)^[nodes.length] 0

/-- The set of node indices visited by the single-point descent. -/
def onPath (TDist : Type) (nodes : List (RFNode TDist)) (f : ℕ → List ℤ → ℚ)
    (id : ℕ) (k : ℕ) : Prop :=
  ∃ j, (descendStep TDist nodes f id)^[j] 0 = k

/-- One iteration `n` of the node loop of `findLeavesGroupwise`
(lines 834–881).  The state is the array of per-node relative bags
(`nodebag_rel`) together with the output assignment `leaves` (position `d`
↦ index of the leaf node whose distribution pointer is stored; `none`
models a never-written slot).  An empty bag is skipped; a leaf node records
itself for every position in its bag; a split node sends its bag left and
right by feature score and clears itself. -/
def glStep (TDist : Type) (nodes : List (RFNode TDist)) (f : ℕ → List ℤ → ℚ)
    (ids : List ℕ) (st : (ℕ → List ℕ) × (ℕ → Option ℕ)) (n : ℕ) :
    (ℕ → List ℕ) × (ℕ → Option ℕ) :=
  if st.1 n = [] then st
  else if (nodes.getD n (RFNode.fresh TDist 0)).is_leaf then
    (st.1, fun d => if d ∈ st.1 n then some n else st.2 d)
  else
    (fun m =>
      if m = 2 * n + 1 then
        st.1 (2 * n + 1) ++ (st.1 n).filter
          (fun d => f (ids.getD d 0) (nodes.getD n (RFNode.fresh TDist 0)).params
            < (nodes.getD n (RFNode.fresh TDist 0)).thresh)
      else if m = 2 * n + 2 then
        st.1 (2 * n + 2) ++ (st.1 n).filter
          (fun d => ¬ f (ids.getD d 0) (nodes.getD n (RFNode.fresh TDist 0)).params
            < (nodes.getD n (RFNode.fresh TDist 0)).thresh)
      else if m = n then [] else st.1 m,
     st.2)

/-- `randomForestBase::findLeavesGroupwise` (lines 820–882): all data
positions start in the root bag and are pushed down the tree node by node. -/
def findLeavesGroupwise (TDist : Type) (nodes : List (RFNode TDist))
    (f : ℕ → List ℤ → ℚ) (ids : List ℕ) (n_nodes : ℕ) : ℕ → Option ℕ :=
  ((List.range n_nodes).foldl (glStep TDist nodes f ids)
    (fun m => if m = 0 then List.range ids.length else [], fun _ => none)).2

/-- `randomForestBase::predictDistSingle` (lines 451–482): for each data
position, reset the output, combine the dereferenced leaf distribution
(`*leaves[t]`, i.e. `post[0]` of the leaf node found by `findLeafSingle`)
of every tree in order, and normalise.  `dflt` models the dereference of
the `post.data()` pointer of an empty vector. -/
def predictDistSingle (TDist TOut : Type) (trees : List (List (RFNode TDist)))
    (f : ℕ → List ℤ → ℚ) (ids : List ℕ) (reset : TOut)
    (combine : TOut → TDist → ℕ → TOut) (normalise : TOut → TOut)
    (dflt : TDist) : List TOut :=
  (List.range ids.length).map (fun d =>
    normalise (trees.foldl (fun acc nodes =>
      combine acc
        ((nodes.getD (findLeafSingle TDist nodes f (ids.getD d 0))
            (RFNode.fresh TDist 0)).post.getD 0 dflt)
        (ids.getD d 0)) reset))

/-- `randomForestBase::predictDistGroupwise` (lines 383–415): find the leaf
assignment of every tree with `findLeavesGroupwise`, then for each data
position reset the output, combine the stored leaf distribution of every
tree in order (`*leaves[t][d]`), and normalise. -/
def predictDistGroupwise (TDist TOut : Type) (trees : List (List (RFNode TDist)))
    (f : ℕ → List ℤ → ℚ) (ids : List ℕ) (n_nodes : ℕ) (reset : TOut)
    (combine : TOut → TDist → ℕ → TOut) (normalise : TOut → TOut)
    (dflt : TDist) : List TOut :=
  (List.range ids.length).map (fun d =>
    normalise (trees.foldl (fun acc nodes =>
      combine acc
        (match findLeavesGroupwise TDist nodes f ids n_nodes d with
         | some m => (nodes.getD m (RFNode.fresh TDist 0)).post.getD 0 dflt
         | none => dflt)
        (ids.getD d 0)) reset))

/-- Well-formed tree of a valid forest: the stated node count matches the
node array, the root exists, and every split node has both children in
range (guaranteed by breadth-first allocation and training). -/
def wfTree (TDist : Type) (nodes : List (RFNode TDist)) (n_nodes : ℕ) : Prop :=
  nodes.length = n_nodes ∧ 0 < n_nodes ∧
    ∀ n, n < n_nodes →
      (nodes.getD n (RFNode.fresh TDist 0)).is_leaf = false → 2 * n + 2 < n_nodes

theorem descendStep_leaf (TDist : Type) (nodes : List (RFNode TDist))
    (f : ℕ → List ℤ → ℚ) (id : ℕ) (n : ℕ)
    (h : (nodes.getD n (RFNode.fresh TDist 0)).is_leaf = true) :
    descendStep TDist nodes f id n = n := by
  unfold descendStep
  rw [if_pos h]

theorem descendStep_ge (TDist : Type) (nodes : List (RFNode TDist))
    (f : ℕ → List ℤ → ℚ) (id : ℕ) (n : ℕ)
    (h : (nodes.getD n (RFNode.fresh TDist 0)).is_leaf = false) :
    n + 1 ≤ descendStep TDist nodes f id n := by
  unfold descendStep
  rw [if_neg (by rw [h]; exact Bool.false_ne_true)]
  split <;> omega

theorem descendStep_le (TDist : Type) (nodes : List (RFNode TDist))
    (f : ℕ → List ℤ → ℚ) (id : ℕ) (n : ℕ)
    (h : (nodes.getD n (RFNode.fresh TDist 0)).is_leaf = false) :
    descendStep TDist nodes f id n ≤ 2 * n + 2 := by
  unfold descendStep
  rw [if_neg (by rw [h]; exact Bool.false_ne_true)]
  split <;> omega

theorem descendStep_cases (TDist : Type) (nodes : List (RFNode TDist))
    (f : ℕ → List ℤ → ℚ) (id : ℕ) (n : ℕ)
    (h : (nodes.getD n (RFNode.fresh TDist 0)).is_leaf = false) :
    descendStep TDist nodes f id n = 2 * n + 1 ∨
      descendStep TDist nodes f id n = 2 * n + 2 := by
  unfold descendStep
  rw [if_neg (by rw [h]; exact Bool.false_ne_true)]
  split_ifs with hsc
  · exact Or.inl rfl
  · exact Or.inr rfl

theorem descendStep_split (TDist : Type) (nodes : List (RFNode TDist))
    (f : ℕ → List ℤ → ℚ) (id : ℕ) (n : ℕ)
    (h : (nodes.getD n (RFNode.fresh TDist 0)).is_leaf = false) :
    descendStep TDist nodes f id n =
      (if f id (nodes.getD n (RFNode.fresh TDist 0)).params
          < (nodes.getD n (RFNode.fresh TDist 0)).thresh
       then 2 * n + 1 else 2 * n + 2) := by
  unfold descendStep
  rw [if_neg (by rw [h]; exact Bool.false_ne_true)]

theorem path_lt (TDist : Type) (nodes : List (RFNode TDist))
    (f : ℕ → List ℤ → ℚ) (id : ℕ) (n_nodes : ℕ)
    (hwf : wfTree TDist nodes n_nodes) (j : ℕ) :
    (descendStep TDist nodes f id)^[j] 0 < n_nodes := by
  obtain ⟨hlen, hpos, hchild⟩ := hwf
  induction j with
  | zero => simpa using hpos
  | succ i ih =>
    rw [Function.iterate_succ_apply']
    rcases hb : (nodes.getD ((descendStep TDist nodes f id)^[i] 0)
        (RFNode.fresh TDist 0)).is_leaf with hb' | hb'
    · have hch := hchild _ ih hb
      have hle := descendStep_le TDist nodes f id _ hb
      omega
    · rw [descendStep_leaf TDist nodes f id _ hb]
      exact ih

theorem leafIdx_isLeaf (TDist : Type) (nodes : List (RFNode TDist))
    (f : ℕ → List ℤ → ℚ) (id : ℕ) (n_nodes : ℕ)
    (hwf : wfTree TDist nodes n_nodes) :
    (nodes.getD (findLeafSingle TDist nodes f id)
      (RFNode.fresh TDist 0)).is_leaf = true := by
  have hlen := hwf.1
  -- some prefix of the descent hits a leaf
  have hA : ∃ j, j ≤ nodes.length ∧
      (nodes.getD ((descendStep TDist nodes f id)^[j] 0)
        (RFNode.fresh TDist 0)).is_leaf = true := by
    by_contra hcon
    push_neg at hcon
    have hgrow : ∀ j, j ≤ nodes.length →
        j ≤ (descendStep TDist nodes f id)^[j] 0 := by
      intro j
      induction j with
      | zero => omega
      | succ i ih =>
        intro hle
        have h1 := ih (by omega)
        have h2 := hcon i (by omega)
        rw [Function.iterate_succ_apply']
        have h3 := descendStep_ge TDist nodes f id _
          (by rcases hb : (nodes.getD ((descendStep TDist nodes f id)^[i] 0)
              (RFNode.fresh TDist 0)).is_leaf with hb' | hb'
              · rfl
              · exact absurd hb h2)
        omega
    have hfin := hgrow nodes.length le_rfl
    have hlt := path_lt TDist nodes f id n_nodes hwf nodes.length
    omega
  obtain ⟨j, hj, hleaf⟩ := hA
  have habs : (descendStep TDist nodes f id)^[nodes.length] 0
      = (descendStep TDist nodes f id)^[j] 0 := by
    have : nodes.length = (nodes.length - j) + j := by omega
    rw [this, Function.iterate_add_apply]
    exact Function.iterate_fixed (descendStep_leaf TDist nodes f id _ hleaf) _
  unfold findLeafSingle
  rw [habs]
  exact hleaf

theorem onPath_leafIdx (TDist : Type) (nodes : List (RFNode TDist))
    (f : ℕ → List ℤ → ℚ) (id : ℕ) :
    onPath TDist nodes f id (findLeafSingle TDist nodes f id) :=
  ⟨nodes.length, rfl⟩

theorem leafIdx_eq_of_onPath_leaf (TDist : Type) (nodes : List (RFNode TDist))
    (f : ℕ → List ℤ → ℚ) (id : ℕ) (n_nodes : ℕ)
    (hwf : wfTree TDist nodes n_nodes) (k : ℕ)
    (hk : onPath TDist nodes f id k)
    (hleaf : (nodes.getD k (RFNode.fresh TDist 0)).is_leaf = true) :
    findLeafSingle TDist nodes f id = k := by
  obtain ⟨j, hj⟩ := hk
  rcases le_or_lt j nodes.length with hle | hlt
  · unfold findLeafSingle
    have : nodes.length = (nodes.length - j) + j := by omega
    rw [this, Function.iterate_add_apply, hj]
    exact Function.iterate_fixed (descendStep_leaf TDist nodes f id _ hleaf) _
  · have hLf := leafIdx_isLeaf TDist nodes f id n_nodes hwf
    have : j = (j - nodes.length) + nodes.length := by omega
    rw [this, Function.iterate_add_apply] at hj
    have habs := Function.iterate_fixed
      (descendStep_leaf TDist nodes f id _ hLf) (j - nodes.length)
    unfold findLeafSingle at habs ⊢
    rw [habs] at hj
    exact hj

theorem onPath_entry (TDist : Type) (nodes : List (RFNode TDist))
    (f : ℕ → List ℤ → ℚ) (id : ℕ) (k : ℕ) (hk0 : k ≠ 0)
    (hk : onPath TDist nodes f id k) :
    ∃ p, onPath TDist nodes f id p ∧
      (nodes.getD p (RFNode.fresh TDist 0)).is_leaf = false ∧
      descendStep TDist nodes f id p = k ∧
      (2 * p + 1 = k ∨ 2 * p + 2 = k) := by
  have hex : ∃ j, (descendStep TDist nodes f id)^[j] 0 = k := hk
  have hspec := Nat.find_spec hex
  rcases hj0 : Nat.find hex with j0 | j1
  · rw [hj0] at hspec
    simp at hspec
    exact absurd hspec.symm hk0
  · rw [hj0] at hspec
    rw [Function.iterate_succ_apply'] at hspec
    refine ⟨(descendStep TDist nodes f id)^[j1] 0, ⟨j1, rfl⟩, ?_, hspec, ?_⟩
    · rcases hb : (nodes.getD ((descendStep TDist nodes f id)^[j1] 0)
          (RFNode.fresh TDist 0)).is_leaf with hb' | hb'
      · rfl
      · exfalso
        rw [descendStep_leaf TDist nodes f id _ hb] at hspec
        have := Nat.find_min hex (m := j1) (by omega)
        exact this hspec
    · rcases hb : (nodes.getD ((descendStep TDist nodes f id)^[j1] 0)
          (RFNode.fresh TDist 0)).is_leaf with hb' | hb'
      · rcases descendStep_cases TDist nodes f id _ hb with h | h
        · left
          omega
        · right
          omega
      · exfalso
        rw [descendStep_leaf TDist nodes f id _ hb] at hspec
        have := Nat.find_min hex (m := j1) (by omega)
        exact this hspec

theorem onPath_left_iff (TDist : Type) (nodes : List (RFNode TDist))
    (f : ℕ → List ℤ → ℚ) (id : ℕ) (m : ℕ)
    (hm : (nodes.getD m (RFNode.fresh TDist 0)).is_leaf = false) :
    onPath TDist nodes f id (2 * m + 1) ↔
      (onPath TDist nodes f id m ∧
        f id (nodes.getD m (RFNode.fresh TDist 0)).params
          < (nodes.getD m (RFNode.fresh TDist 0)).thresh) := by
  constructor
  · intro h
    obtain ⟨p, hpP, hpL, hpS, hpar⟩ := onPath_entry TDist nodes f id _ (by omega) h
    have hpm : p = m := by omega
    subst hpm
    refine ⟨hpP, ?_⟩
    by_contra hsc
    rw [descendStep_split TDist nodes f id _ hpL, if_neg hsc] at hpS
    omega
  · rintro ⟨⟨j, hj⟩, hsc⟩
    refine ⟨j + 1, ?_⟩
    rw [Function.iterate_succ_apply', hj,
      descendStep_split TDist nodes f id _ hm, if_pos hsc]

theorem onPath_right_iff (TDist : Type) (nodes : List (RFNode TDist))
    (f : ℕ → List ℤ → ℚ) (id : ℕ) (m : ℕ)
    (hm : (nodes.getD m (RFNode.fresh TDist 0)).is_leaf = false) :
    onPath TDist nodes f id (2 * m + 2) ↔
      (onPath TDist nodes f id m ∧
        ¬ f id (nodes.getD m (RFNode.fresh TDist 0)).params
          < (nodes.getD m (RFNode.fresh TDist 0)).thresh) := by
  constructor
  · intro h
    obtain ⟨p, hpP, hpL, hpS, hpar⟩ := onPath_entry TDist nodes f id _ (by omega) h
    have hpm : p = m := by omega
    subst hpm
    refine ⟨hpP, ?_⟩
    intro hsc
    rw [descendStep_split TDist nodes f id _ hpL, if_pos hsc] at hpS
    omega
  · rintro ⟨⟨j, hj⟩, hsc⟩
    refine ⟨j + 1, ?_⟩
    rw [Function.iterate_succ_apply', hj,
      descendStep_split TDist nodes f id _ hm, if_neg hsc]

theorem onPath_orphan (TDist : Type) (nodes : List (RFNode TDist))
    (f : ℕ → List ℤ → ℚ) (id : ℕ) (m : ℕ)
    (hm : (nodes.getD m (RFNode.fresh TDist 0)).is_leaf = true) (k : ℕ)
    (hk : 2 * m + 1 = k ∨ 2 * m + 2 = k) :
    ¬ onPath TDist nodes f id k := by
  intro h
  obtain ⟨p, hpP, hpL, hpS, hpar⟩ := onPath_entry TDist nodes f id k (by omega) h
  have hpm : p = m := by omega
  subst hpm
  exact absurd (hpL.symm.trans hm) (by decide)

/-- Loop invariant for the node loop of `findLeavesGroupwise` after the
first `m` nodes have been processed: a not-yet-processed bag holds exactly
the data positions whose descent path passes through it and whose
path-parent has already been processed, and the leaf assignment holds
exactly the single-descent leaves with index below `m`. -/
def glInv (TDist : Type) (nodes : List (RFNode TDist)) (f : ℕ → List ℤ → ℚ)
    (ids : List ℕ) (m : ℕ) (st : (ℕ → List ℕ) × (ℕ → Option ℕ)) : Prop :=
  (∀ k, m ≤ k → ∀ d, d ∈ st.1 k ↔
      (d < ids.length ∧ onPath TDist nodes f (ids.getD d 0) k ∧
        (k = 0 ∨ (k - 1) / 2 < m))) ∧
  (∀ d, d < ids.length →
      st.2 d = if findLeafSingle TDist nodes f (ids.getD d 0) < m
        then some (findLeafSingle TDist nodes f (ids.getD d 0)) else none)

theorem glStep_inv (TDist : Type) (nodes : List (RFNode TDist))
    (f : ℕ → List ℤ → ℚ) (ids : List ℕ) (n_nodes : ℕ)
    (hwf : wfTree TDist nodes n_nodes) (m : ℕ) (hm : m < n_nodes)
    (st : (ℕ → List ℕ) × (ℕ → Option ℕ))
    (hI : glInv TDist nodes f ids m st) :
    glInv TDist nodes f ids (m + 1) (glStep TDist nodes f ids st m) := by
  obtain ⟨hA, hB⟩ := hI
  have hbagm : ∀ d, d ∈ st.1 m ↔
      (d < ids.length ∧ onPath TDist nodes f (ids.getD d 0) m) := by
    intro d
    rw [hA m le_rfl d]
    constructor
    · rintro ⟨h1, h2, h3⟩
      exact ⟨h1, h2⟩
    · rintro ⟨h1, h2⟩
      exact ⟨h1, h2, by omega⟩
  unfold glStep
  split_ifs with hempty hleaf
  · have hnone : ∀ d, d < ids.length →
        ¬ onPath TDist nodes f (ids.getD d 0) m := by
      intro d hd hp
      have hmem := (hbagm d).2 ⟨hd, hp⟩
      rw [hempty] at hmem
      exact List.not_mem_nil d hmem
    constructor
    · intro k hk d
      rw [hA k (by omega) d]
      constructor
      · rintro ⟨h1, h2, h3⟩
        exact ⟨h1, h2, by omega⟩
      · rintro ⟨h1, h2, h3⟩
        refine ⟨h1, h2, ?_⟩
        by_contra hcon
        push_neg at hcon
        obtain ⟨hk0, hge⟩ := hcon
        obtain ⟨p, hpP, hpL, hpS, hpar⟩ :=
          onPath_entry TDist nodes f (ids.getD d 0) k hk0 h2
        have hpm : p = m := by omega
        subst hpm
        exact hnone d h1 hpP
    · intro d hd
      have hneq : findLeafSingle TDist nodes f (ids.getD d 0) ≠ m := by
        intro he
        exact hnone d hd (he ▸ onPath_leafIdx TDist nodes f (ids.getD d 0))
      rw [hB d hd]
      rcases Nat.lt_trichotomy (findLeafSingle TDist nodes f (ids.getD d 0)) m
        with h | h | h
      · rw [if_pos h, if_pos (by omega)]
      · exact absurd h hneq
      · rw [if_neg (by omega), if_neg (by omega)]
  · constructor
    · intro k hk d
      dsimp only
      rw [hA k (by omega) d]
      constructor
      · rintro ⟨h1, h2, h3⟩
        exact ⟨h1, h2, by omega⟩
      · rintro ⟨h1, h2, h3⟩
        refine ⟨h1, h2, ?_⟩
        by_contra hcon
        push_neg at hcon
        obtain ⟨hk0, hge⟩ := hcon
        have hk12 : 2 * m + 1 = k ∨ 2 * m + 2 = k := by omega
        exact onPath_orphan TDist nodes f (ids.getD d 0) m hleaf k hk12 h2
    · intro d hd
      dsimp only
      by_cases hdm : d ∈ st.1 m
      · rw [if_pos hdm]
        have hp := ((hbagm d).1 hdm).2
        have hleafIdx := leafIdx_eq_of_onPath_leaf TDist nodes f (ids.getD d 0)
          n_nodes hwf m hp hleaf
        rw [hleafIdx, if_pos (by omega)]
      · rw [if_neg hdm, hB d hd]
        have hneq : findLeafSingle TDist nodes f (ids.getD d 0) ≠ m := by
          intro he
          exact hdm ((hbagm d).2
            ⟨hd, he ▸ onPath_leafIdx TDist nodes f (ids.getD d 0)⟩)
        rcases Nat.lt_trichotomy (findLeafSingle TDist nodes f (ids.getD d 0)) m
          with h | h | h
        · rw [if_pos h, if_pos (by omega)]
        · exact absurd h hneq
        · rw [if_neg (by omega), if_neg (by omega)]
  · have hleaf' : (nodes.getD m (RFNode.fresh TDist 0)).is_leaf = false := by
      simpa using hleaf
    constructor
    · intro k hk d
      dsimp only
      by_cases hk1 : k = 2 * m + 1
      · subst hk1
        rw [if_pos rfl]
        have hold : st.1 (2 * m + 1) = [] := by
          by_contra hne
          obtain ⟨d0, hd0⟩ := List.exists_mem_of_ne_nil _ hne
          obtain ⟨h1, h2, h3⟩ := (hA (2 * m + 1) (by omega) d0).1 hd0
          omega
        rw [hold]
        simp only [List.nil_append, List.mem_filter, decide_eq_true_eq]
        constructor
        · rintro ⟨hmem, hcond⟩
          obtain ⟨h1, h2⟩ := (hbagm d).1 hmem
          exact ⟨h1,
            (onPath_left_iff TDist nodes f (ids.getD d 0) m hleaf').2 ⟨h2, hcond⟩,
            by omega⟩
        · rintro ⟨h1, h2, h3⟩
          obtain ⟨hp, hcond⟩ :=
            (onPath_left_iff TDist nodes f (ids.getD d 0) m hleaf').1 h2
          exact ⟨(hbagm d).2 ⟨h1, hp⟩, hcond⟩
      · by_cases hk2 : k = 2 * m + 2
        · subst hk2
          rw [if_neg hk1, if_pos rfl]
          have hold : st.1 (2 * m + 2) = [] := by
            by_contra hne
            obtain ⟨d0, hd0⟩ := List.exists_mem_of_ne_nil _ hne
            obtain ⟨h1, h2, h3⟩ := (hA (2 * m + 2) (by omega) d0).1 hd0
            omega
          rw [hold]
          simp only [List.nil_append, List.mem_filter, decide_eq_true_eq]
          constructor
          · rintro ⟨hmem, hcond⟩
            obtain ⟨h1, h2⟩ := (hbagm d).1 hmem
            exact ⟨h1,
              (onPath_right_iff TDist nodes f (ids.getD d 0) m hleaf').2
                ⟨h2, hcond⟩,
              by omega⟩
          · rintro ⟨h1, h2, h3⟩
            obtain ⟨hp, hcond⟩ :=
              (onPath_right_iff TDist nodes f (ids.getD d 0) m hleaf').1 h2
            exact ⟨(hbagm d).2 ⟨h1, hp⟩, hcond⟩
        · have hkm : k ≠ m := by omega
          rw [if_neg hk1, if_neg hk2, if_neg hkm]
          rw [hA k (by omega) d]
          constructor
          · rintro ⟨h1, h2, h3⟩
            exact ⟨h1, h2, by omega⟩
          · rintro ⟨h1, h2, h3⟩
            exact ⟨h1, h2, by omega⟩
    · intro d hd
      dsimp only
      rw [hB d hd]
      have hneq : findLeafSingle TDist nodes f (ids.getD d 0) ≠ m := by
        intro he
        have hL := leafIdx_isLeaf TDist nodes f (ids.getD d 0) n_nodes hwf
        rw [he, hleaf'] at hL
        exact Bool.false_ne_true hL
      rcases Nat.lt_trichotomy (findLeafSingle TDist nodes f (ids.getD d 0)) m
        with h | h | h
      · rw [if_pos h, if_pos (by omega)]
      · exact absurd h hneq
      · rw [if_neg (by omega), if_neg (by omega)]

theorem foldl_range_inv (α : Type) (P : ℕ → α → Prop) (f : α → ℕ → α) (n : ℕ)
    (hstep : ∀ m s, m < n → P m s → P (m + 1) (f s m)) (s0 : α) (h0 : P 0 s0) :
    P n ((List.range n).foldl f s0) := by
  induction n with
  | zero => simpa using h0
  | succ k ih =>
    rw [List.range_succ, List.foldl_append, List.foldl_cons, List.foldl_nil]
    exact hstep k _ (by omega) (ih (fun m s hm hs => hstep m s (by omega) hs))

theorem findLeavesGroupwise_eq_single (TDist : Type) (nodes : List (RFNode TDist))
    (f : ℕ → List ℤ → ℚ) (ids : List ℕ) (n_nodes : ℕ)
    (hwf : wfTree TDist nodes n_nodes) (d : ℕ) (hd : d < ids.length) :
    findLeavesGroupwise TDist nodes f ids n_nodes d
      = some (findLeafSingle TDist nodes f (ids.getD d 0)) := by
  have h0 : glInv TDist nodes f ids 0
      (fun m => if m = 0 then List.range ids.length else [], fun _ => none) := by
    constructor
    · intro k hk d0
      dsimp only
      by_cases hk0 : k = 0
      · subst hk0
        rw [if_pos rfl]
        simp only [List.mem_range]
        constructor
        · intro h1
          exact ⟨h1, ⟨0, rfl⟩, Or.inl (by trivial)⟩
        · rintro ⟨h1, h2, h3⟩
          exact h1
      · rw [if_neg hk0]
        constructor
        · intro h1
          exact absurd h1 (List.not_mem_nil d0)
        · rintro ⟨h1, h2, h3⟩
          omega
    · intro d0 hd0
      dsimp only
      rw [if_neg (by omega)]
  have hfin := foldl_range_inv _ (glInv TDist nodes f ids)
    (glStep TDist nodes f ids) n_nodes
    (fun m s hm hs => glStep_inv TDist nodes f ids n_nodes hwf m hm s hs) _ h0
  obtain ⟨hAfin, hBfin⟩ := hfin
  unfold findLeavesGroupwise
  rw [hBfin d hd]
  rw [if_pos (by
    unfold findLeafSingle
    exact path_lt TDist nodes f (ids.getD d 0) n_nodes hwf nodes.length)]

theorem foldl_congr_mem (α β : Type) (l : List β) (f g : α → β → α)
    (h : ∀ a, ∀ b ∈ l, f a b = g a b) :
    ∀ s, l.foldl f s = l.foldl g s := by
  induction l with
  | nil =>
    intro s
    rfl
  | cons x xs ih =>
    intro s
    rw [List.foldl_cons, List.foldl_cons, h s x (List.mem_cons_self x xs)]
    exact ih (fun a b hb => h a b (List.mem_cons_of_mem x hb)) _

/-- C7: for every well-formed forest (node counts match, split nodes have
in-range children), every id list, and every pair of feature functors
computing the same score function, `predictDistGroupwise` and
`predictDistSingle` produce identical output distributions for the same
inputs: both reset each output, combine the leaf distribution reached in
each tree in tree order, and normalise — the groupwise tree-descent
assigns every data position exactly the leaf found by the single
descent. -/
theorem predictDist_groupwise_eq_single (TDist TOut : Type)
    (trees : List (List (RFNode TDist))) (fg fs : ℕ → List ℤ → ℚ)
    (ids : List ℕ) (n_nodes : ℕ) (reset : TOut)
    (combine : TOut → TDist → ℕ → TOut) (normalise : TOut → TOut) (dflt : TDist)
    (hfeq : ∀ id p, fg id p = fs id p)
    (hwf : ∀ nodes ∈ trees, wfTree TDist nodes n_nodes) :
    predictDistGroupwise TDist TOut trees fg ids n_nodes reset combine normalise
        dflt
      = predictDistSingle TDist TOut trees fs ids reset combine normalise dflt := by
  have hfg : fg = fs := funext fun i => funext fun p => hfeq i p
  subst hfg
  unfold predictDistGroupwise predictDistSingle
  refine List.map_congr_left ?_
  intro d hd
  have hdlt : d < ids.length := List.mem_range.1 hd
  congr 1
  refine foldl_congr_mem _ _ trees _ _ ?_ reset
  intro acc nodes hnodes
  rw [findLeavesGroupwise_eq_single TDist nodes fg ids n_nodes
    (hwf nodes hnodes) d hdlt]

/-- One-leaf, one-tree forest used as the prediction-parity witness
input. -/
def wTree7 : List (RFNode ℚ) := [⟨[], true, 0, [5]⟩]

theorem predictDist_groupwise_eq_single_witness :
    (∀ id p, (fun (_ : ℕ) (_ : List ℤ) => (0:ℚ)) id p
      = (fun (_ : ℕ) (_ : List ℤ) => (0:ℚ)) id p) ∧
    (∀ nodes ∈ [wTree7], wfTree ℚ nodes 1) ∧
    predictDistGroupwise ℚ ℚ [wTree7] (fun _ _ => 0) [7] 1 0
        (fun a q _ => a + q) (fun a => a) 0
      = predictDistSingle ℚ ℚ [wTree7] (fun _ _ => 0) [7] 0
          (fun a q _ => a + q) (fun a => a) 0 := by
  have hwf : ∀ nodes ∈ [wTree7], wfTree ℚ nodes 1 := by
    intro nodes hn
    rcases List.mem_cons.1 hn with h | h
    · subst h
      refine ⟨rfl, by omega, ?_⟩
      intro n hn1 hleaf
      have hn0 : n = 0 := by omega
      subst hn0
      exact absurd hleaf (by decide)
    · exact absurd h (List.not_mem_nil nodes)
  refine ⟨fun id p => rfl, hwf, ?_⟩
  exact predictDist_groupwise_eq_single ℚ ℚ [wTree7]
    (fun _ _ => 0) (fun _ _ => 0) [7] 1 0 (fun a q _ => a + q) (fun a => a) 0
    (fun id p => rfl) hwf

end Canopy



